import Mathlib

/-!
# goirc: `irc/datastructures.go`

A shallow embedding of the sender-mask parser (`parseUser`) and the line
parser (`parseLine`) of `irc/datastructures.go`, with the properties of the
two parsers proved over the embedding.

Conventions of the embedding.

* A Go `string` is a `List Char`: the sequence of runes of the text.  Every
  separator the code looks for (space, `:`, `!`, `@`, line feed) is a
  one-byte rune, so slicing at those places is the same on bytes and on runes.
* An index or slice expression that can fail at run time is a checked
  operation: the embedding returns `none` where the Go code would stop with
  an out-of-range index, and `some v` where it returns `v`.
* `time.Now()` is the parameter `now`.
* `regexp` and the `strings` functions are library code: the embedding
  gives the part of their behaviour the program uses.
-/

namespace Irc

/-- A Go string, as the list of its runes. -/
abbrev Str := List Char

/-! ## `strings` -/

/-- `strings.HasPrefix(s, sep)`. -/
def HasPrefix : Str → Str → Bool
  | _, [] => true
  | [], _ :: _ => false
  | c :: s, d :: sep => c == d && HasPrefix s sep

/-- `strings.Index(s, sep)`: the position of the first occurrence of `sep`
in `s`, `none` when there is none (Go returns `-1`). -/
def Index : Str → Str → Option Nat
  | [], sep => if HasPrefix [] sep then some 0 else none
  | c :: s, sep =>
    if HasPrefix (c :: s) sep then some 0
    else (Index s sep).map (fun m => m + 1)

/-- The loop of `strings.genSplit` for a non-empty separator: `n` is the
number of cuts still allowed. -/
def genSplitLoop (sep : Str) : Nat → Str → List Str
  | 0, s => [s]
  | n + 1, s =>
    match Index s sep with
    | none => [s]
    | some m => s.take m :: genSplitLoop sep n (s.drop (m + sep.length))

/-- `strings.SplitN(s, sep, n)` for a non-empty separator `sep` (the only
use in the program has `sep = " :"`): at most `n` pieces, the last one the
unsplit remainder; `n = 0` gives no piece, and `n` is first lowered to
`len(s) + 1`. -/
def SplitN (s sep : Str) (n : Nat) : List Str :=
  match min n (s.length + 1) with
  | 0 => []
  | k + 1 => genSplitLoop sep k s

/-- The scan of `strings.FieldsFunc`: `cur` is the field being read, empty
when the scan is between fields. -/
def fieldsLoop (f : Char → Bool) : Str → Str → List Str
  | [], cur => if cur.length = 0 then [] else [cur]
  | c :: s, cur =>
    if f c then
      if cur.length = 0 then fieldsLoop f s [] else cur :: fieldsLoop f s []
    else fieldsLoop f s (cur ++ [c])

/-- `strings.FieldsFunc(s, f)`: the maximal runs of runes of `s` that do not
satisfy `f`, in order. -/
def FieldsFunc (s : Str) (f : Char → Bool) : List Str :=
  fieldsLoop f s []

/-! ## `regexp` -/

/-- One step of a compiled pattern.  The patterns of this program are a
concatenation of anchors, literal runes, character classes, classes under
`+`, and capture marks; `(?: )` only groups and compiles to nothing. -/
inductive Inst where
  /-- `^` without the `m` flag: the beginning of the text. -/
  | bol
  /-- `$` without the `m` flag: the end of the text. -/
  | eol
  /-- One rune of a class. -/
  | cls (p : Char → Bool)
  /-- A class under greedy `+`. -/
  | plus (p : Char → Bool)
  /-- A literal rune. -/
  | lit (c : Char)
  /-- Record the current position in a capture slot: slot `2 * i` is the
  start of group `i`, slot `2 * i + 1` its end. -/
  | cap (slot : Nat)

/-- The capture slots of a match in progress. -/
abbrev Caps := List (Option Nat)

/-- Greedy `+` over a class `p`, followed by the continuation `k`: one rune
of the class, then first the attempt to take more, then the continuation. -/
def plusLoop (p : Char → Bool) (k : Nat → Str → Option Caps) : Nat → Str → Option Caps
  | _, [] => none
  | pos, c :: s =>
    if p c then
      match plusLoop p k (pos + 1) s with
      | some r => some r
      | none => k (pos + 1) s
    else none

/-- Backtracking run of a pattern at position `pos`, with `rest` the text
from `pos` on.  It returns the first match in the order of a backtracking
search, which is the match `regexp` reports. -/
def run : List Inst → Caps → Nat → Str → Option Caps
  | [], caps, _, _ => some caps
  | Inst.bol :: is, caps, pos, rest =>
    if pos = 0 then run is caps pos rest else none
  | Inst.eol :: is, caps, pos, rest =>
    if rest.length = 0 then run is caps pos rest else none
  | Inst.cls p :: is, caps, pos, rest =>
    match rest with
    | [] => none
    | c :: s => if p c then run is caps (pos + 1) s else none
  | Inst.lit d :: is, caps, pos, rest =>
    match rest with
    | [] => none
    | c :: s => if c = d then run is caps (pos + 1) s else none
  | Inst.plus p :: is, caps, pos, rest => plusLoop p (run is caps) pos rest
  | Inst.cap slot :: is, caps, pos, rest => run is (caps.set slot (some pos)) pos rest

/-- A compiled pattern: its steps and the number of its capture groups,
group 0 (the whole match) not counted. -/
structure Regexp where
  /-- The steps, in order. -/
  prog : List Inst
  /-- The number of parenthesised capture groups. -/
  numSubexp : Nat

/-- The unanchored search: the leftmost start position at which the pattern
matches. -/
def search (re : Regexp) : Nat → Str → Option Caps
  | pos, [] =>
    run (Inst.cap 0 :: re.prog ++ [Inst.cap 1])
      (List.replicate (2 * (re.numSubexp + 1)) none) pos []
  | pos, c :: s =>
    match run (Inst.cap 0 :: re.prog ++ [Inst.cap 1])
      (List.replicate (2 * (re.numSubexp + 1)) none) pos (c :: s) with
    | some r => some r
    | none => search re (pos + 1) s

/-- The text of group `i` of a match: `s[start:end]`, and the empty string
for a group that did not take part in the match. -/
def submatch (s : Str) (caps : Caps) (i : Nat) : Str :=
  match caps[2 * i]?, caps[2 * i + 1]? with
  | some (some a), some (some b) => (s.drop a).take (b - a)
  | _, _ => []

/-- `(*Regexp).FindStringSubmatch(s)`: `none` (Go's `nil`) when the pattern
does not match, else the texts of groups `0 .. numSubexp` of the leftmost
match. -/
def Regexp.FindStringSubmatch (re : Regexp) (s : Str) : Option (List Str) :=
  (search re 0 s).map (fun caps => (List.range (re.numSubexp + 1)).map (submatch s caps))

/-! ## `User` -/

/-- The class `[a-zA-Z[-\x60{-}]`: a letter, or a rune from `[` to the
grave accent, or from `{` to `}`. -/
def nickFirstClass (c : Char) : Bool :=
  ('a' ≤ c && c ≤ 'z') || ('A' ≤ c && c ≤ 'Z') || ('[' ≤ c && c ≤ '\x60')
    || ('\x7b' ≤ c && c ≤ '\x7d')

/-- The class `[a-zA-Z0-9[-\x60{-}\-]`: the first class, a digit, or `-`. -/
def nickRestClass (c : Char) : Bool :=
  ('a' ≤ c && c ≤ 'z') || ('A' ≤ c && c ≤ 'Z') || ('0' ≤ c && c ≤ '9')
    || ('[' ≤ c && c ≤ '\x60') || ('\x7b' ≤ c && c ≤ '\x7d') || c == '-'

/-- The class `[^@]`: any rune but `@`, the line feed included. -/
def notAtClass (c : Char) : Bool := c != '@'

/-- The class `.` without the `s` flag: any rune but the line feed. -/
def dotClass (c : Char) : Bool := c != '\n'

/-- The pattern
`^([a-zA-Z[-\x60{-}][a-zA-Z0-9[-\x60{-}\-]+)(?:!([^@]+))@(.+)$`, where `\x60`
stands for the grave accent.  Group 1 is the nick, group 2 the user, group 3
the host; the group `(?: )` around `!` and group 2 has no quantifier. -/
def userRegex : Regexp where
  prog :=
    [ Inst.bol,
      Inst.cap 2, Inst.cls nickFirstClass, Inst.plus nickRestClass, Inst.cap 3,
      Inst.lit '!', Inst.cap 4, Inst.plus notAtClass, Inst.cap 5,
      Inst.lit '@',
      Inst.cap 6, Inst.plus dotClass, Inst.cap 7,
      Inst.eol ]
  numSubexp := 3

/-- The struct `User`. -/
structure User where
  /-- The nickname, empty for a sender that is not of the mask form. -/
  Nick : Str
  /-- The field `User` (a field cannot carry the name of its structure). -/
  UserName : Str
  /-- The host. -/
  Host : Str
  /-- The text the value was parsed from. -/
  Raw : Str
  deriving DecidableEq, Repr

/-- The zero value `User{}`. -/
def User.zero : User := { Nick := [], UserName := [], Host := [], Raw := [] }

/-- The function `parseUser`. -/
def parseUser (raw : Str) : Option User :=
  let user : User := { User.zero with Raw := raw }
  match userRegex.FindStringSubmatch raw with
  | none => some user
  | some ms =>
    match ms[1]?, ms[2]?, ms[3]? with
    | some nick, some usr, some host =>
      some { user with Nick := nick, UserName := usr, Host := host }
    | _, _, _ => none

/-- The method `String` of `User`. -/
def User.String (u : User) : Str :=
  if u.Nick ≠ [] then u.Nick else u.Raw

/-- The method `Ident` of `User`; `fmt.Sprintf("%s@%s", a, b)` is
`a ++ "@" ++ b`. -/
def User.Ident (u : User) : Str :=
  if u.Host ≠ [] ∧ u.UserName ≠ [] then u.UserName ++ '@' :: u.Host
  else if u.Host ≠ [] then u.Host
  else []

/-! ## `Line` -/

/-- The struct `Line`. -/
structure Line where
  /-- The sender. -/
  Src : User
  /-- The command. -/
  Command : Str
  /-- The arguments. -/
  Args : List Str
  /-- The line as received. -/
  Raw : Str
  /-- The time of parsing. -/
  Time : Nat
  /-- The target of a derived command; the parser leaves it empty. -/
  Dst : Str
  /-- The identity of the client. -/
  me : User
  deriving DecidableEq, Repr

/-- The result variable `line` after `line.Raw = input` and
`line.Time = time.Now()`: every other field has its zero value. -/
def Line.init (now : Nat) (input : Str) : Line :=
  { Src := User.zero, Command := [], Args := [], Raw := input, Time := now,
    Dst := [], me := User.zero }

/-- The slice expression `xs[n:]`, which fails when `n` exceeds the
length. -/
def sliceFrom {α : Type} (xs : List α) (n : Nat) : Option (List α) :=
  if n ≤ xs.length then some (xs.drop n) else none

/-- The function `parseLine`, from the tokenisation of the head on:
`line` is the result so far, `comps` the pieces of the split on `" :"`. -/
def parseWords (line : Line) (comps : List Str) (words : List Str) : Option Line :=
  if words.length = 0 then some line
  else
    match words[0]? with
    | none => none
    | some w0 =>
      match w0[0]? with
      | none => none
      | some b =>
        let afterPrefix : Option (Line × List Str) :=
          if b = ':' then
            match sliceFrom w0 1 with
            | none => none
            | some p =>
              match parseUser p, sliceFrom words 1 with
              | some src, some ws => some ({ line with Src := src }, ws)
              | _, _ => none
          else some (line, words)
        match afterPrefix with
        | none => none
        | some (line, words) =>
          if words.length = 0 then some line
          else
            match words[0]?, sliceFrom words 1 with
            | some cmd, some ws =>
              let line := { line with Command := cmd }
              let ws := if comps.length > 1 then
                  match comps[1]? with
                  | some t => some (ws ++ [t])
                  | none => none
                else some ws
              match ws with
              | some ws => some { line with Args := ws }
              | none => none
            | _, _ => none

/-- The function `parseLine`. -/
def parseLine (now : Nat) (input : Str) : Option Line :=
  let line := Line.init now input
  if input.length = 0 then some line
  else
    match input[0]? with
    | none => none
    | some b =>
      if b = ' ' then some line
      else
        let comps := SplitN input [' ', ':'] 2
        match comps[0]? with
        | none => none
        | some head =>
          parseWords line comps (FieldsFunc head (fun r => r == ' '))

/-- The method `SrcIsMe` of `Line`. -/
def Line.SrcIsMe (l : Line) : Bool :=
  l.Src.Nick == l.me.Nick

/-! ## Inputs of the claims -/

/-- The separator `" :"` of `parseLine`. -/
def sepColon : Str := [' ', ':']

/-- The predicate of the tokeniser of `parseLine`: the rune is a space. -/
def isSpace (r : Char) : Bool := r == ' '

/-- A token of the head of a line: non-empty, without a space. -/
def IsWord (w : Str) : Prop := w ≠ [] ∧ ' ' ∉ w

/-- A command or middle argument: a token that does not begin with `:`. -/
def IsMiddle (w : Str) : Prop := IsWord w ∧ w.head? ≠ some ':'

/-- The text `" " + a1 + " " + a2 + ... + " " + an`. -/
def spaced : List Str → Str
  | [] => []
  | a :: as => ' ' :: (a ++ spaced as)

/-- The text made of the tokens `w`, each behind a run of `k + 1` spaces,
for the pairs `(k, w)` of the list. -/
def gapped : List (Nat × Str) → Str
  | [] => []
  | (k, w) :: ws => List.replicate (k + 1) ' ' ++ w ++ gapped ws

/-- A letter: `a` to `z` or `A` to `Z`. -/
def isLetter (c : Char) : Bool := ('a' ≤ c && c ≤ 'z') || ('A' ≤ c && c ≤ 'Z')

/-- A digit: `0` to `9`. -/
def isDigit (c : Char) : Bool := '0' ≤ c && c ≤ '9'

/-- One of the nine special characters of a nickname: the brackets, the
backslash, the caret, the underscore, the grave accent, the braces and the
bar. -/
def isSpecial (c : Char) : Bool :=
  ['[', '\\', ']', '^', '_', '\x60', '\x7b', '|', '\x7d'].contains c

/-- A valid nick: a letter or special character, then one or more letters,
digits, special characters or `-`. -/
def IsNick (nick : Str) : Prop :=
  ∃ c n, nick = c :: n ∧ (isLetter c = true ∨ isSpecial c = true) ∧ n ≠ [] ∧
    ∀ x ∈ n, isLetter x = true ∨ isDigit x = true ∨ isSpecial x = true ∨ x = '-'

/-- The head of a line: the text before the first `" :"`, the whole line
when there is none.  It is `comps[0]` of `parseLine`. -/
def lineHead (input : Str) : Str :=
  match Index input sepColon with
  | none => input
  | some m => input.take m

/-- The trailing argument of a line, if any: the text after the first
`" :"`.  It is `comps[1:]` of `parseLine`. -/
def lineTrailing (input : Str) : List Str :=
  match Index input sepColon with
  | none => []
  | some m => [input.drop (m + 2)]

/-- The texts the pattern `userRegex` accepts, by its three groups: `nick`
is a rune of the first class and one or more runes of the second, `user` is
one or more runes other than `@`, `host` is one or more runes other than the
line feed. -/
def IsMask (nick user host : Str) : Prop :=
  (∃ c n, nick = c :: n ∧ nickFirstClass c = true ∧ n ≠ [] ∧ ∀ x ∈ n, nickRestClass x = true)
    ∧ (user ≠ [] ∧ '@' ∉ user) ∧ (host ≠ [] ∧ '\n' ∉ host)

/-! ## Facts about `strings` -/

theorem HasPrefix_iff (s sep : Str) : HasPrefix s sep = true ↔ ∃ t, s = sep ++ t := by
  induction sep generalizing s with
  | nil => simp [HasPrefix]
  | cons d sep ih =>
    cases s with
    | nil => simp [HasPrefix]
    | cons c s =>
      simp only [HasPrefix, Bool.and_eq_true, beq_iff_eq, ih, List.cons_append, List.cons.injEq]
      constructor
      · rintro ⟨rfl, t, rfl⟩; exact ⟨t, rfl, rfl⟩
      · rintro ⟨t, rfl, rfl⟩; exact ⟨rfl, t, rfl⟩

theorem Index_cons_ne (c : Char) (s : Str) (h : c ≠ ' ') :
    Index (c :: s) sepColon = (Index s sepColon).map (fun m => m + 1) := by
  simp [Index, HasPrefix, sepColon, h]

theorem Index_space_ne (s : Str) (h : s.head? ≠ some ':') :
    Index (' ' :: s) sepColon = (Index s sepColon).map (fun m => m + 1) := by
  cases s with
  | nil => simp [Index, HasPrefix, sepColon]
  | cons d s =>
    have hd : d ≠ ':' := by simpa using h
    simp [Index, HasPrefix, sepColon, hd]

theorem Index_sep (t : Str) : Index (' ' :: ':' :: t) sepColon = some 0 := by
  simp [Index, HasPrefix, sepColon]

/-- The position `Index` returns is an occurrence of the separator. -/
theorem Index_some_split (sep : Str) : ∀ (s : Str) (m : Nat), Index s sep = some m →
    s = s.take m ++ sep ++ s.drop (m + sep.length) := by
  intro s
  induction s with
  | nil =>
    intro m h
    by_cases hp : HasPrefix [] sep = true
    · obtain ⟨t, ht⟩ := (HasPrefix_iff _ _).1 hp
      have hsep : sep = [] := by
        cases sep with
        | nil => rfl
        | cons a b => simp at ht
      simp [hsep]
    · simp [Index, hp] at h
  | cons c s ih =>
    intro m h
    by_cases hp : HasPrefix (c :: s) sep = true
    · obtain ⟨t, ht⟩ := (HasPrefix_iff _ _).1 hp
      have hm : m = 0 := by simpa [Index, hp] using h.symm
      subst hm
      rw [ht]
      simp
    · simp only [Index, hp, Bool.false_eq_true, if_false, Option.map_eq_some'] at h
      obtain ⟨k, hk, rfl⟩ := h
      have := ih k hk
      have e : k + 1 + sep.length = (k + sep.length) + 1 := by omega
      rw [e]
      simp only [List.take_succ_cons, List.drop_succ_cons, List.cons_append]
      rw [← this]

/-- No occurrence of the separator starts before the position `Index`
returns. -/
theorem Index_some_first (sep : Str) : ∀ (s : Str) (m : Nat), Index s sep = some m →
    ∀ h t, s = h ++ sep ++ t → m ≤ h.length := by
  intro s
  induction s with
  | nil =>
    intro m hm h t e
    by_cases hp : HasPrefix [] sep = true
    · have : m = 0 := by simpa [Index, hp] using hm.symm
      omega
    · simp [Index, hp] at hm
  | cons c s ih =>
    intro m hm h t e
    by_cases hp : HasPrefix (c :: s) sep = true
    · have : m = 0 := by simpa [Index, hp] using hm.symm
      omega
    · simp only [Index, hp, Bool.false_eq_true, if_false, Option.map_eq_some'] at hm
      obtain ⟨k, hk, rfl⟩ := hm
      cases h with
      | nil =>
        exact absurd ((HasPrefix_iff _ _).2 ⟨t, by simpa using e⟩) hp
      | cons a h =>
        simp only [List.cons_append, List.cons.injEq] at e
        have := ih k hk h t (by simpa using e.2)
        simp only [List.length_cons]
        omega

theorem Index_none_iff (sep : Str) : ∀ s : Str, Index s sep = none ↔
    ∀ h t, s ≠ h ++ sep ++ t := by
  intro s
  induction s with
  | nil =>
    by_cases hp : HasPrefix [] sep = true
    · simp only [Index, hp, if_true]
      obtain ⟨t, ht⟩ := (HasPrefix_iff _ _).1 hp
      constructor
      · intro h; cases h
      · intro h; exact absurd (by simpa using ht) (h [] t)
    · simp only [Index, hp]
      constructor
      · intro _ h t e
        apply hp
        rw [HasPrefix_iff]
        have h1 : h = [] := by
          cases h with
          | nil => rfl
          | cons a b => simp at e
        subst h1
        exact ⟨t, by simpa using e⟩
      · intro _; rfl
  | cons c s ih =>
    by_cases hp : HasPrefix (c :: s) sep = true
    · simp only [Index, hp, if_true]
      obtain ⟨t, ht⟩ := (HasPrefix_iff _ _).1 hp
      constructor
      · intro h; cases h
      · intro h; exact absurd (by simpa using ht) (h [] t)
    · simp only [Index, hp, Bool.false_eq_true, if_false, Option.map_eq_none', ih]
      constructor
      · intro hs h t e
        cases h with
        | nil => exact hp ((HasPrefix_iff _ _).2 ⟨t, by simpa using e⟩)
        | cons a h =>
          simp only [List.cons_append, List.cons.injEq] at e
          exact hs h t (by simpa using e.2)
      · intro hs h t e
        exact hs (c :: h) t (by simp [e])

theorem Index_nil_sepColon : Index [] sepColon = none := by
  simp [Index, HasPrefix, sepColon]

theorem SplitN_none (s : Str) (h : Index s sepColon = none) :
    SplitN s sepColon 2 = [s] := by
  cases s with
  | nil => simp [SplitN, genSplitLoop]
  | cons c s =>
    have : min 2 ((c :: s).length + 1) = 1 + 1 := by simp
    simp only [SplitN, this, genSplitLoop, h]

theorem SplitN_some (s : Str) (m : Nat) (h : Index s sepColon = some m) :
    SplitN s sepColon 2 = [s.take m, s.drop (m + 2)] := by
  cases s with
  | nil => simp [Index_nil_sepColon] at h
  | cons c s =>
    have : min 2 ((c :: s).length + 1) = 1 + 1 := by simp
    simp only [SplitN, this, genSplitLoop, h]
    simp [sepColon]

theorem genSplitLoop_ne_nil (sep : Str) (n : Nat) (s : Str) : genSplitLoop sep n s ≠ [] := by
  cases n with
  | zero => simp [genSplitLoop]
  | succ n =>
    simp only [genSplitLoop]
    cases Index s sep <;> simp

theorem SplitN_two_ne_nil (s sep : Str) : SplitN s sep 2 ≠ [] := by
  unfold SplitN
  have : min 2 (s.length + 1) = (min 2 (s.length + 1) - 1) + 1 := by
    have : 1 ≤ min 2 (s.length + 1) := by simp
    omega
  rw [this]
  exact genSplitLoop_ne_nil _ _ _

theorem Index_append_sep : ∀ (h t : Str), Index h sepColon = none →
    Index (h ++ ' ' :: ':' :: t) sepColon = some h.length := by
  intro h
  induction h with
  | nil => intro t _; simpa using Index_sep t
  | cons c h ih =>
    intro t hn
    by_cases hc : c = ' '
    · subst hc
      cases h with
      | nil =>
        simp [Index, HasPrefix, sepColon]
      | cons d h =>
        by_cases hd : d = ':'
        · subst hd
          simp [Index, HasPrefix, sepColon] at hn
        · have hh : (d :: h).head? ≠ some ':' := by simpa using hd
          rw [Index_space_ne _ hh] at hn
          have hh2 : (d :: h ++ ' ' :: ':' :: t).head? ≠ some ':' := by simpa using hd
          rw [List.cons_append, Index_space_ne _ hh2, ih t (by simpa using hn)]
          simp
    · rw [Index_cons_ne _ _ hc] at hn
      rw [List.cons_append, Index_cons_ne _ _ hc, ih t (by simpa using hn)]
      simp

theorem fieldsLoop_append_word (f : Char → Bool) : ∀ (w s cur : Str),
    (∀ c ∈ w, f c = false) → fieldsLoop f (w ++ s) cur = fieldsLoop f s (cur ++ w) := by
  intro w
  induction w with
  | nil => intro s cur _; simp
  | cons c w ih =>
    intro s cur h
    have hc : f c = false := h c (by simp)
    have e : fieldsLoop f (c :: w ++ s) cur = fieldsLoop f (w ++ s) (cur ++ [c]) := by
      simp [fieldsLoop, hc]
    rw [e, ih s (cur ++ [c]) (fun x hx => h x (by simp [hx]))]
    simp

theorem fieldsLoop_mem_ne_nil (f : Char → Bool) : ∀ (s cur : Str),
    ∀ w ∈ fieldsLoop f s cur, w ≠ [] := by
  intro s
  induction s with
  | nil =>
    intro cur w hw
    by_cases hc : cur.length = 0
    · simp [fieldsLoop, hc] at hw
    · simp only [fieldsLoop, hc, if_false, List.mem_singleton] at hw
      subst hw
      intro e; simp [e] at hc
  | cons c s ih =>
    intro cur w hw
    by_cases hf : f c = true
    · by_cases hc : cur.length = 0
      · simp only [fieldsLoop, hf, hc, if_true] at hw
        exact ih [] w hw
      · simp only [fieldsLoop, hf, hc, if_true, if_false, List.mem_cons] at hw
        rcases hw with rfl | hw
        · intro e; simp [e] at hc
        · exact ih [] w hw
    · simp only [fieldsLoop, hf, Bool.false_eq_true, if_false] at hw
      exact ih _ w hw

theorem fieldsLoop_cur (f : Char → Bool) : ∀ (s cur : Str), cur ≠ [] →
    ∃ w ws, fieldsLoop f s cur = (cur ++ w) :: ws := by
  intro s
  induction s with
  | nil =>
    intro cur hc
    have : cur.length ≠ 0 := by simpa using hc
    exact ⟨[], [], by simp [fieldsLoop, this]⟩
  | cons c s ih =>
    intro cur hc
    have hl : cur.length ≠ 0 := by simpa using hc
    by_cases hf : f c = true
    · exact ⟨[], fieldsLoop f s [], by simp [fieldsLoop, hf, hl]⟩
    · obtain ⟨w, ws, e⟩ := ih (cur ++ [c]) (by simp)
      exact ⟨c :: w, ws, by simp [fieldsLoop, hf, e]⟩

theorem FieldsFunc_nil (f : Char → Bool) : FieldsFunc [] f = [] := by
  simp [FieldsFunc, fieldsLoop]

theorem FieldsFunc_sep (f : Char → Bool) (c : Char) (s : Str) (h : f c = true) :
    FieldsFunc (c :: s) f = FieldsFunc s f := by
  simp [FieldsFunc, fieldsLoop, h]

theorem FieldsFunc_word_end (f : Char → Bool) (w : Str) (hw : w ≠ [])
    (h : ∀ c ∈ w, f c = false) : FieldsFunc w f = [w] := by
  have := fieldsLoop_append_word f w [] [] h
  have hl : w.length ≠ 0 := by simpa using hw
  simp only [List.append_nil, List.nil_append] at this
  simp [FieldsFunc, this, fieldsLoop, hl]

theorem FieldsFunc_word_sep (f : Char → Bool) (w : Str) (c : Char) (s : Str) (hw : w ≠ [])
    (h : ∀ x ∈ w, f x = false) (hc : f c = true) :
    FieldsFunc (w ++ c :: s) f = w :: FieldsFunc s f := by
  have := fieldsLoop_append_word f w (c :: s) [] h
  have hl : w.length ≠ 0 := by simpa using hw
  simp only [List.nil_append] at this
  simp [FieldsFunc, this, fieldsLoop, hl, hc]

/-! ## Facts about `regexp` -/

theorem plusLoop_cons (p : Char → Bool) (k : Nat → Str → Option Caps) (pos : Nat) (c : Char)
    (s : Str) : plusLoop p k pos (c :: s) =
      if p c then
        match plusLoop p k (pos + 1) s with
        | some r => some r
        | none => k (pos + 1) s
      else none := rfl

theorem plusLoop_greedy (p : Char → Bool) (k : Nat → Str → Option Caps) :
    ∀ (w rest : Str) (pos : Nat) (r : Caps), w ≠ [] → (∀ c ∈ w, p c = true) →
      (∀ c, rest.head? = some c → p c = false) → k (pos + w.length) rest = some r →
      plusLoop p k pos (w ++ rest) = some r := by
  intro w
  induction w with
  | nil => intro rest pos r h; exact absurd rfl h
  | cons c w ih =>
    intro rest pos r _ hw hrest hk
    have hc : p c = true := hw c (by simp)
    cases w with
    | nil =>
      have hnone : plusLoop p k (pos + 1) rest = none := by
        cases rest with
        | nil => simp [plusLoop]
        | cons d rest => simp [plusLoop, hrest d (by simp)]
      rw [List.cons_append, List.nil_append, plusLoop_cons, hnone]
      simpa [hc] using hk
    | cons d w =>
      have := ih rest (pos + 1) r (by simp) (fun x hx => hw x (by simp [hx])) hrest
        (by simpa [Nat.add_assoc, Nat.add_comm 1] using hk)
      rw [List.cons_append, plusLoop_cons, this]
      simp [hc]

theorem plusLoop_sound (p : Char → Bool) (k : Nat → Str → Option Caps) :
    ∀ (s : Str) (pos : Nat) (r : Caps), plusLoop p k pos s = some r →
      ∃ n, 0 < n ∧ n ≤ s.length ∧ (∀ c ∈ s.take n, p c = true) ∧
        k (pos + n) (s.drop n) = some r := by
  intro s
  induction s with
  | nil => intro pos r h; simp [plusLoop] at h
  | cons c s ih =>
    intro pos r h
    by_cases hc : p c = true
    · rw [plusLoop_cons] at h
      simp only [hc, if_true] at h
      cases hin : plusLoop p k (pos + 1) s with
      | some r2 =>
        rw [hin] at h
        obtain ⟨n, hn0, hn, hall, hk⟩ := ih (pos + 1) r2 hin
        refine ⟨n + 1, by omega, by simp; omega, ?_, ?_⟩
        · intro x hx
          simp only [List.take_succ_cons, List.mem_cons] at hx
          rcases hx with rfl | hx
          · exact hc
          · exact hall x hx
        · have e : pos + (n + 1) = pos + 1 + n := by omega
          simp only [List.drop_succ_cons, e, hk]
          simpa using h
      | none =>
        rw [hin] at h
        refine ⟨1, by omega, by simp, ?_, ?_⟩
        · intro x hx
          simp only [List.take_succ_cons, List.take_zero, List.mem_singleton] at hx
          subst hx; exact hc
        · simpa using h
    · simp [plusLoop, hc] at h

/-- The pattern as `search` runs it, between the marks of group 0. -/
theorem userRegex_prog : Inst.cap 0 :: userRegex.prog ++ [Inst.cap 1] =
    [ Inst.cap 0, Inst.bol,
      Inst.cap 2, Inst.cls nickFirstClass, Inst.plus nickRestClass, Inst.cap 3,
      Inst.lit '!', Inst.cap 4, Inst.plus notAtClass, Inst.cap 5,
      Inst.lit '@',
      Inst.cap 6, Inst.plus dotClass, Inst.cap 7,
      Inst.eol, Inst.cap 1 ] := rfl

theorem userRegex_run_sound (caps r : Caps) (pos : Nat) (s : Str)
    (h : run (Inst.cap 0 :: userRegex.prog ++ [Inst.cap 1]) caps pos s = some r) :
    pos = 0 ∧ ∃ nick user host, IsMask nick user host ∧ s = nick ++ '!' :: user ++ '@' :: host := by
  rw [userRegex_prog] at h
  simp only [run] at h
  by_cases hp : pos = 0
  · refine ⟨hp, ?_⟩
    simp only [hp, if_true] at h
    cases s with
    | nil => simp at h
    | cons c s1 =>
      simp only at h
      by_cases hc : nickFirstClass c = true
      · simp only [hc, if_true] at h
        obtain ⟨n1, hn1, hle1, hall1, h⟩ := plusLoop_sound _ _ _ _ _ h
        cases e1 : s1.drop n1 with
        | nil => simp [e1] at h
        | cons d s2 =>
          simp only [e1] at h
          by_cases hd : d = '!'
          · simp only [hd, if_true] at h
            obtain ⟨n2, hn2, hle2, hall2, h⟩ := plusLoop_sound _ _ _ _ _ h
            cases e2 : s2.drop n2 with
            | nil => simp [e2] at h
            | cons d2 s3 =>
              simp only [e2] at h
              by_cases hd2 : d2 = '@'
              · simp only [hd2, if_true] at h
                obtain ⟨n3, hn3, hle3, hall3, h⟩ := plusLoop_sound _ _ _ _ _ h
                simp only [List.length_drop] at h
                by_cases he : s3.length - n3 = 0
                · have hs3 : n3 = s3.length := by
                    simp only [List.length_drop] at he; omega
                  refine ⟨c :: s1.take n1, s2.take n2, s3, ⟨⟨c, s1.take n1, rfl, hc, ?_, hall1⟩,
                    ⟨?_, ?_⟩, ⟨?_, ?_⟩⟩, ?_⟩
                  · intro e
                    have := congrArg List.length e
                    rw [List.length_take, Nat.min_eq_left hle1] at this
                    simp at this
                    omega
                  · intro e
                    have := congrArg List.length e
                    rw [List.length_take, Nat.min_eq_left hle2] at this
                    simp at this
                    omega
                  · intro hm
                    have := hall2 _ hm
                    simp [notAtClass] at this
                  · intro e; subst e; simp at hs3; omega
                  · intro hm
                    have : '\n' ∈ s3.take n3 := by simpa [hs3] using hm
                    have := hall3 _ this
                    simp [dotClass] at this
                  · have a1 : s1.take n1 ++ '!' :: s2 = s1 := by
                      rw [← hd, ← e1]; exact List.take_append_drop n1 s1
                    have a2 : s2.take n2 ++ '@' :: s3 = s2 := by
                      rw [← hd2, ← e2]; exact List.take_append_drop n2 s2
                    simp only [List.cons_append, List.append_assoc, List.cons.injEq, true_and]
                    rw [a2, a1]
                · simp [he] at h
              · simp [hd2] at h
          · simp [hd] at h
      · simp [hc] at h
  · simp [hp] at h

theorem userRegex_search_succ : ∀ (s : Str) (pos : Nat), search userRegex (pos + 1) s = none := by
  intro s
  induction s with
  | nil =>
    intro pos
    cases h : search userRegex (pos + 1) [] with
    | none => rfl
    | some r =>
      simp only [search] at h
      have := (userRegex_run_sound _ _ _ _ h).1
      omega
  | cons c s ih =>
    intro pos
    simp only [search, ih]
    cases h : run (Inst.cap 0 :: userRegex.prog ++ [Inst.cap 1])
        (List.replicate (2 * (userRegex.numSubexp + 1)) none) (pos + 1) (c :: s) with
    | none => rfl
    | some r =>
      have := (userRegex_run_sound _ _ _ _ h).1
      omega

theorem search_zero_eq_run (s : Str) : search userRegex 0 s =
    run (Inst.cap 0 :: userRegex.prog ++ [Inst.cap 1])
      (List.replicate (2 * (userRegex.numSubexp + 1)) none) 0 s := by
  cases s with
  | nil => simp [search]
  | cons c s =>
    simp only [search]
    cases h : run (Inst.cap 0 :: userRegex.prog ++ [Inst.cap 1])
        (List.replicate (2 * (userRegex.numSubexp + 1)) none) 0 (c :: s) with
    | none => simpa using userRegex_search_succ s 0
    | some r => rfl

/-- A text the pattern matches is a mask. -/
theorem userRegex_sound (s : Str) (m : List Str) (h : userRegex.FindStringSubmatch s = some m) :
    ∃ nick user host, IsMask nick user host ∧ s = nick ++ '!' :: user ++ '@' :: host := by
  simp only [Regexp.FindStringSubmatch, Option.map_eq_some'] at h
  obtain ⟨caps, hc, _⟩ := h
  rw [search_zero_eq_run] at hc
  exact (userRegex_run_sound _ _ _ _ hc).2

theorem userRegex_run_complete (c : Char) (n user host : Str)
    (hc : nickFirstClass c = true) (hn : n ≠ []) (hall : ∀ x ∈ n, nickRestClass x = true)
    (hu : user ≠ []) (hua : '@' ∉ user) (hh : host ≠ []) (hhn : '\n' ∉ host) :
    run (Inst.cap 0 :: userRegex.prog ++ [Inst.cap 1])
      (List.replicate (2 * (userRegex.numSubexp + 1)) none) 0
      (c :: (n ++ '!' :: (user ++ '@' :: host))) =
    some [some 0, some (1 + n.length + 1 + user.length + 1 + host.length),
      some 0, some (1 + n.length),
      some (1 + n.length + 1), some (1 + n.length + 1 + user.length),
      some (1 + n.length + 1 + user.length + 1),
      some (1 + n.length + 1 + user.length + 1 + host.length)] := by
  rw [userRegex_prog]
  simp only [run, if_true, hc]
  apply plusLoop_greedy _ _ _ _ _ _ hn hall
  · intro x hx
    simp only [List.head?_cons, Option.some.injEq] at hx
    subst hx
    decide
  simp only [if_true]
  apply plusLoop_greedy _ _ _ _ _ _ hu
  · intro x hx
    simp only [notAtClass, bne_iff_ne, ne_eq]
    intro e; exact hua (e ▸ hx)
  · intro x hx
    simp only [List.head?_cons, Option.some.injEq] at hx
    subst hx
    decide
  simp only [if_true]
  have := plusLoop_greedy dotClass
    (fun x x_1 =>
      if List.length x_1 = 0 then
        some
          ((((((((List.set (List.replicate (2 * (userRegex.numSubexp + 1)) none) 0 (some 0)).set 2
            (some 0)).set 3 (some (0 + 1 + n.length))).set 4
              (some (0 + 1 + n.length + 1))).set 5 (some (0 + 1 + n.length + 1 + user.length))).set 6
                (some (0 + 1 + n.length + 1 + user.length + 1))).set 7 (some x)).set 1 (some x))
      else none) host [] (0 + 1 + n.length + 1 + user.length + 1) _ hh
    (by
      intro x hx
      simp only [dotClass, bne_iff_ne, ne_eq]
      intro e; exact hhn (e ▸ hx))
    (by simp) rfl
  simp only [List.append_nil] at this
  rw [this]
  simp [userRegex]

theorem slice_mid (x y z : Str) (a b : Nat) (ha : a = x.length) (hb : b = a + y.length) :
    ((x ++ (y ++ z)).drop a).take (b - a) = y := by
  subst ha hb
  simp

/-- A mask is matched, and the groups are its three parts. -/
theorem userRegex_complete (nick user host : Str) (h : IsMask nick user host) :
    userRegex.FindStringSubmatch (nick ++ '!' :: user ++ '@' :: host) =
      some [nick ++ '!' :: user ++ '@' :: host, nick, user, host] := by
  obtain ⟨⟨c, n, rfl, hc, hn, hall⟩, ⟨hu, hua⟩, ⟨hh, hhn⟩⟩ := h
  have e : (c :: n) ++ '!' :: user ++ '@' :: host = c :: (n ++ '!' :: (user ++ '@' :: host)) := by
    simp
  rw [e]
  simp only [Regexp.FindStringSubmatch, search_zero_eq_run,
    userRegex_run_complete c n user host hc hn hall hu hua hh hhn, Option.map_some']
  have hr : List.range (userRegex.numSubexp + 1) = [0, 1, 2, 3] := by decide
  rw [hr]
  simp only [List.map, submatch]
  have g0 := slice_mid [] (c :: (n ++ '!' :: (user ++ '@' :: host))) [] 0
    (1 + n.length + 1 + user.length + 1 + host.length) rfl (by simp; omega)
  have g1 := slice_mid [] (c :: n) ('!' :: (user ++ '@' :: host)) 0 (1 + n.length) rfl
    (by simp; omega)
  have g2 := slice_mid (c :: (n ++ ['!'])) user ('@' :: host) (1 + n.length + 1)
    (1 + n.length + 1 + user.length) (by simp; omega) rfl
  have g3 := slice_mid (c :: (n ++ '!' :: (user ++ ['@']))) host [] (1 + n.length + 1 + user.length + 1)
    (1 + n.length + 1 + user.length + 1 + host.length) (by simp; omega) rfl
  simp only [List.nil_append, List.append_nil, List.cons_append, List.append_assoc,
    List.singleton_append] at g0 g1 g2 g3
  simp only [Nat.reduceMul, Nat.reduceAdd, List.getElem?_cons_succ, List.getElem?_cons_zero]
  rw [g0, g1, g2, g3]

theorem FindStringSubmatch_length (re : Regexp) (s : Str) (m : List Str)
    (h : re.FindStringSubmatch s = some m) : m.length = re.numSubexp + 1 := by
  simp only [Regexp.FindStringSubmatch, Option.map_eq_some'] at h
  obtain ⟨caps, _, rfl⟩ := h
  simp

/-! ## Facts about `parseUser` -/

theorem parseUser_of_none (raw : Str) (h : userRegex.FindStringSubmatch raw = none) :
    parseUser raw = some { Nick := [], UserName := [], Host := [], Raw := raw } := by
  simp [parseUser, h, User.zero]

theorem parseUser_of_mask (nick user host : Str) (h : IsMask nick user host) :
    parseUser (nick ++ '!' :: user ++ '@' :: host) =
      some { Nick := nick, UserName := user, Host := host,
             Raw := nick ++ '!' :: user ++ '@' :: host } := by
  simp only [parseUser, userRegex_complete nick user host h, User.zero]
  simp

/-- The two outcomes of `parseUser`: no match and only `Raw` set, or a mask
and its three parts. -/
theorem parseUser_cases (raw : Str) :
    (userRegex.FindStringSubmatch raw = none ∧
      parseUser raw = some { Nick := [], UserName := [], Host := [], Raw := raw }) ∨
    (∃ nick user host, IsMask nick user host ∧ raw = nick ++ '!' :: user ++ '@' :: host ∧
      parseUser raw = some { Nick := nick, UserName := user, Host := host, Raw := raw }) := by
  cases h : userRegex.FindStringSubmatch raw with
  | none => exact Or.inl ⟨rfl, parseUser_of_none raw h⟩
  | some m =>
    obtain ⟨nick, user, host, hm, rfl⟩ := userRegex_sound raw m h
    exact Or.inr ⟨nick, user, host, hm, rfl, parseUser_of_mask nick user host hm⟩

theorem parseUser_total (raw : Str) : ∃ u, parseUser raw = some u := by
  rcases parseUser_cases raw with h | ⟨_, _, _, _, _, h⟩
  · exact ⟨_, h.2⟩
  · exact ⟨_, h⟩

theorem parseUser_Raw (raw : Str) (u : User) (h : parseUser raw = some u) : u.Raw = raw := by
  rcases parseUser_cases raw with h1 | ⟨_, _, _, _, _, h1⟩
  · rw [h1.2] at h; cases h; rfl
  · rw [h1] at h; cases h; rfl

/-! ## Facts about `parseLine` -/

theorem parseWords_nil (line : Line) (comps : List Str) :
    parseWords line comps [] = some line := by
  simp [parseWords]

theorem trailing_eq (comps : List Str) (ws : List Str) :
    (if comps.length > 1 then
        match comps[1]? with
        | some t => some (ws ++ [t])
        | none => none
      else some ws) = some (ws ++ (comps.drop 1).take 1) := by
  match comps with
  | [] => simp
  | [_] => simp
  | _ :: t :: r => simp

theorem parseWords_cmd (line : Line) (comps : List Str) (b : Char) (w : Str) (ws : List Str)
    (hb : b ≠ ':') :
    parseWords line comps ((b :: w) :: ws) =
      some { line with Command := b :: w, Args := ws ++ (comps.drop 1).take 1 } := by
  simp only [parseWords, trailing_eq]
  simp [hb, sliceFrom]

theorem parseWords_prefix_only (line : Line) (comps : List Str) (p : Str) (u : User)
    (hu : parseUser p = some u) :
    parseWords line comps [':' :: p] = some { line with Src := u } := by
  simp only [parseWords, trailing_eq]
  simp [sliceFrom, hu]

theorem parseWords_prefix_cmd (line : Line) (comps : List Str) (p cmd : Str) (ws : List Str)
    (u : User) (hu : parseUser p = some u) :
    parseWords line comps ((':' :: p) :: cmd :: ws) =
      some { line with Src := u, Command := cmd, Args := ws ++ (comps.drop 1).take 1 } := by
  simp only [parseWords, trailing_eq]
  simp [sliceFrom, hu]

theorem parseWords_total (line : Line) (comps : List Str) (words : List Str)
    (h : ∀ w ∈ words, w ≠ []) : ∃ l, parseWords line comps words = some l := by
  match words, h with
  | [], _ => exact ⟨_, parseWords_nil _ _⟩
  | [] :: _, h => exact absurd rfl (h [] (by simp))
  | (b :: p) :: ws, _ =>
    by_cases hb : b = ':'
    · subst hb
      obtain ⟨u, hu⟩ := parseUser_total p
      match ws with
      | [] => exact ⟨_, parseWords_prefix_only _ _ _ _ hu⟩
      | cmd :: ws => exact ⟨_, parseWords_prefix_cmd _ _ _ _ _ _ hu⟩
    · exact ⟨_, parseWords_cmd _ _ _ _ _ hb⟩

theorem SplitN_eq (input : Str) :
    SplitN input sepColon 2 = lineHead input :: lineTrailing input := by
  cases h : Index input sepColon with
  | none => simp [SplitN_none _ h, lineHead, lineTrailing, h]
  | some m => simp [SplitN_some _ _ h, lineHead, lineTrailing, h]

/-- The function `parseLine` past its sanity check. -/
theorem parseLine_cons (now : Nat) (b : Char) (s : Str) (hb : b ≠ ' ') :
    parseLine now (b :: s) =
      parseWords (Line.init now (b :: s)) (lineHead (b :: s) :: lineTrailing (b :: s))
        (FieldsFunc (lineHead (b :: s)) isSpace) := by
  have e : (fun r : Char => r == ' ') = isSpace := rfl
  have := SplitN_eq (b :: s)
  simp only [sepColon] at this
  simp [parseLine, hb, this, e]

theorem parseLine_nil (now : Nat) : parseLine now [] = some (Line.init now []) := by
  simp [parseLine]

theorem parseLine_space (now : Nat) (s : Str) :
    parseLine now (' ' :: s) = some (Line.init now (' ' :: s)) := by
  simp [parseLine]

theorem parseLine_total (now : Nat) (input : Str) : ∃ l, parseLine now input = some l := by
  match input with
  | [] => exact ⟨_, parseLine_nil now⟩
  | b :: s =>
    by_cases hb : b = ' '
    · subst hb; exact ⟨_, parseLine_space now s⟩
    · rw [parseLine_cons now b s hb]
      exact parseWords_total _ _ _ (fieldsLoop_mem_ne_nil _ _ _)

theorem lineTrailing_length (input : Str) : (lineTrailing input).length ≤ 1 := by
  unfold lineTrailing
  cases Index input sepColon <;> simp

theorem drop_take_trailing (hd : Str) (input : Str) :
    ((hd :: lineTrailing input).drop 1).take 1 = lineTrailing input := by
  unfold lineTrailing
  cases Index input sepColon <;> simp

theorem lineHead_cons (b : Char) (s : Str) (hb : b ≠ ' ') :
    ∃ r, lineHead (b :: s) = b :: r := by
  unfold lineHead
  rw [Index_cons_ne b s hb]
  cases Index s sepColon with
  | none => exact ⟨s, rfl⟩
  | some m => exact ⟨s.take m, rfl⟩

theorem FieldsFunc_head (f : Char → Bool) (b : Char) (s : Str) (hb : f b = false) :
    ∃ w ws, FieldsFunc (b :: s) f = (b :: w) :: ws ∧ ∀ x ∈ ws, x ≠ [] := by
  obtain ⟨w, ws, e⟩ := fieldsLoop_cur f s [b] (by simp)
  have e2 : FieldsFunc (b :: s) f = (b :: w) :: ws := by
    simp [FieldsFunc, fieldsLoop, hb, e]
  refine ⟨w, ws, e2, ?_⟩
  intro x hx
  exact fieldsLoop_mem_ne_nil f (b :: s) [] x (by
    have : fieldsLoop f (b :: s) [] = (b :: w) :: ws := e2
    rw [this]; simp [hx])

/-- The three ways `parseLine` ends past its sanity check: a prefix alone, a
prefix and a command, a command without a prefix. -/
theorem parseLine_cases (now : Nat) (b : Char) (s : Str) (hb : b ≠ ' ') :
    ∃ w ws, FieldsFunc (lineHead (b :: s)) isSpace = (b :: w) :: ws ∧ (∀ x ∈ ws, x ≠ []) ∧
      ((b = ':' ∧ ∃ u, parseUser w = some u ∧
          ((ws = [] ∧ parseLine now (b :: s) = some { Line.init now (b :: s) with Src := u }) ∨
           (∃ cmd args, ws = cmd :: args ∧ parseLine now (b :: s) =
              some { Line.init now (b :: s) with
                Src := u, Command := cmd, Args := args ++ lineTrailing (b :: s) }))) ∨
       (b ≠ ':' ∧ parseLine now (b :: s) =
          some { Line.init now (b :: s) with
            Command := b :: w, Args := ws ++ lineTrailing (b :: s) })) := by
  obtain ⟨r, hr⟩ := lineHead_cons b s hb
  have hsp : isSpace b = false := by simpa [isSpace] using hb
  obtain ⟨w, ws, hw, hne⟩ := FieldsFunc_head isSpace b r hsp
  refine ⟨w, ws, by rw [hr, hw], hne, ?_⟩
  rw [parseLine_cons now b s hb, hr, hw, ← hr]
  by_cases hc : b = ':'
  · left
    subst hc
    obtain ⟨u, hu⟩ := parseUser_total w
    refine ⟨rfl, u, hu, ?_⟩
    match ws with
    | [] => exact Or.inl ⟨rfl, parseWords_prefix_only _ _ _ _ hu⟩
    | cmd :: args =>
      right
      refine ⟨cmd, args, rfl, ?_⟩
      rw [parseWords_prefix_cmd _ _ _ _ _ _ hu, drop_take_trailing]
  · right
    refine ⟨hc, ?_⟩
    rw [parseWords_cmd _ _ _ _ _ hc, drop_take_trailing]

/-! ## Facts about the inputs of the claims -/

theorem isSpace_word (w : Str) (h : ' ' ∉ w) : ∀ c ∈ w, isSpace c = false := by
  intro c hc
  simp only [isSpace, beq_eq_false_iff_ne, ne_eq]
  intro e; exact h (e ▸ hc)

theorem Index_word_append : ∀ (w s : Str), ' ' ∉ w →
    Index (w ++ s) sepColon = (Index s sepColon).map (fun m => m + w.length) := by
  intro w
  induction w with
  | nil => intro s _; simp
  | cons c w ih =>
    intro s h
    have hc : c ≠ ' ' := by intro e; exact h (by simp [e])
    have hw : ' ' ∉ w := by intro e; exact h (by simp [e])
    rw [List.cons_append, Index_cons_ne _ _ hc, ih s hw]
    cases Index s sepColon with
    | none => rfl
    | some m => simp [Nat.add_assoc]

theorem head?_append_middle (a s : Str) (h : IsMiddle a) : (a ++ s).head? ≠ some ':' := by
  obtain ⟨⟨hne, _⟩, hh⟩ := h
  cases a with
  | nil => exact absurd rfl hne
  | cons c a => simpa using hh

theorem Index_spaced : ∀ args : List Str, (∀ a ∈ args, IsMiddle a) →
    Index (spaced args) sepColon = none := by
  intro args
  induction args with
  | nil => intro _; exact Index_nil_sepColon
  | cons a as ih =>
    intro h
    have ha : IsMiddle a := h a (by simp)
    have := ih (fun x hx => h x (by simp [hx]))
    rw [spaced, Index_space_ne _ (head?_append_middle a _ ha), Index_word_append _ _ ha.1.2, this]
    rfl

theorem FieldsFunc_word_spaced : ∀ (args : List Str) (w : Str), IsWord w →
    (∀ a ∈ args, IsWord a) → FieldsFunc (w ++ spaced args) isSpace = w :: args := by
  intro args
  induction args with
  | nil =>
    intro w hw _
    simpa [spaced] using FieldsFunc_word_end isSpace w hw.1 (isSpace_word w hw.2)
  | cons a as ih =>
    intro w hw h
    rw [spaced, FieldsFunc_word_sep isSpace w ' ' _ hw.1 (isSpace_word w hw.2) rfl,
      ih a (h a (by simp)) (fun x hx => h x (by simp [hx]))]

theorem Index_spaces (m : Nat) : Index (List.replicate m ' ') sepColon = none := by
  induction m with
  | zero => exact Index_nil_sepColon
  | succ m ih =>
    rw [List.replicate_succ, Index_space_ne _ (by cases m <;> simp [List.replicate_succ]), ih]
    rfl

theorem Index_spaces_append (k : Nat) (s : Str) (hs : s.head? ≠ some ':')
    (h : Index s sepColon = none) : Index (List.replicate k ' ' ++ s) sepColon = none := by
  induction k with
  | zero => simpa using h
  | succ k ih =>
    rw [List.replicate_succ, List.cons_append, Index_space_ne _ (by
      cases k with
      | zero => simpa using hs
      | succ k => simp [List.replicate_succ]), ih]
    rfl

theorem Index_gapped (m : Nat) : ∀ ws : List (Nat × Str), (∀ x ∈ ws, IsMiddle x.2) →
    Index (gapped ws ++ List.replicate m ' ') sepColon = none := by
  intro ws
  induction ws with
  | nil => intro _; simpa [gapped] using Index_spaces m
  | cons x ws ih =>
    intro h
    obtain ⟨k, a⟩ := x
    have ha : IsMiddle a := h (k, a) (by simp)
    have := ih (fun x hx => h x (by simp [hx]))
    have e : gapped ((k, a) :: ws) ++ List.replicate m ' ' =
        List.replicate (k + 1) ' ' ++ (a ++ (gapped ws ++ List.replicate m ' ')) := by
      simp [gapped]
    rw [e]
    apply Index_spaces_append _ _ (head?_append_middle a _ ha)
    rw [Index_word_append _ _ ha.1.2, this]
    rfl

theorem FieldsFunc_spaces_append (k : Nat) (s : Str) :
    FieldsFunc (List.replicate k ' ' ++ s) isSpace = FieldsFunc s isSpace := by
  induction k with
  | zero => simp
  | succ k ih => rw [List.replicate_succ, List.cons_append, FieldsFunc_sep isSpace ' ' _ rfl, ih]

theorem FieldsFunc_word_gapped (m : Nat) : ∀ (ws : List (Nat × Str)) (w : Str), IsWord w →
    (∀ x ∈ ws, IsWord x.2) →
    FieldsFunc (w ++ (gapped ws ++ List.replicate m ' ')) isSpace = w :: ws.map Prod.snd := by
  intro ws
  induction ws with
  | nil =>
    intro w hw _
    cases m with
    | zero => simpa [gapped] using FieldsFunc_word_end isSpace w hw.1 (isSpace_word w hw.2)
    | succ m =>
      have := FieldsFunc_spaces_append m []
      simp only [List.append_nil, FieldsFunc_nil] at this
      simp only [gapped, List.nil_append, List.replicate_succ, List.map_nil]
      rw [FieldsFunc_word_sep isSpace w ' ' _ hw.1 (isSpace_word w hw.2) rfl, this]
  | cons x ws ih =>
    intro w hw h
    obtain ⟨k, a⟩ := x
    have e : w ++ (gapped ((k, a) :: ws) ++ List.replicate m ' ') =
        w ++ ' ' :: (List.replicate k ' ' ++ (a ++ (gapped ws ++ List.replicate m ' '))) := by
      simp [gapped, List.replicate_succ]
    rw [e, FieldsFunc_word_sep isSpace w ' ' _ hw.1 (isSpace_word w hw.2) rfl,
      FieldsFunc_spaces_append, ih a (h (k, a) (by simp)) (fun x hx => h x (by simp [hx]))]
    simp

theorem lineHead_of_none (s : Str) (h : Index s sepColon = none) : lineHead s = s := by
  simp [lineHead, h]

theorem lineTrailing_of_none (s : Str) (h : Index s sepColon = none) : lineTrailing s = [] := by
  simp [lineTrailing, h]

theorem lineHead_append_sep (hd t : Str) (h : Index hd sepColon = none) :
    lineHead (hd ++ ' ' :: ':' :: t) = hd := by
  simp [lineHead, Index_append_sep hd t h]

theorem lineTrailing_append_sep (hd t : Str) (h : Index hd sepColon = none) :
    lineTrailing (hd ++ ' ' :: ':' :: t) = [t] := by
  have e : hd ++ ' ' :: ':' :: t = hd ++ ([' ', ':'] ++ t) := by simp
  simp only [lineTrailing, Index_append_sep hd t h]
  rw [e, List.drop_append_eq_append_drop]
  simp

/-! ## The claims -/

/-- C1: for a prefix `p` without a space, a command `c` and middle arguments
`args` (each non-empty, without a space, not beginning with `:`) and any
trailing text `t`, `parseLine` on `":" + p + " " + c + " " + a1 + ... + " " +
an + " :" + t` returns the line with `Src = parseUser(p)`, `Command = c` and
`Args = [a1, ..., an, t]`. -/
theorem parseLine_prefix_command_args_trailing (now : Nat) (p c t : Str) (args : List Str)
    (hp : ' ' ∉ p) (hc : IsMiddle c) (ha : ∀ a ∈ args, IsMiddle a) :
    ∃ u, parseUser p = some u ∧
      parseLine now ((':' :: p) ++ (' ' :: c) ++ spaced args ++ [' ', ':'] ++ t) =
        some { Src := u, Command := c, Args := args ++ [t],
               Raw := (':' :: p) ++ (' ' :: c) ++ spaced args ++ [' ', ':'] ++ t,
               Time := now, Dst := [], me := User.zero } := by
  obtain ⟨u, hu⟩ := parseUser_total p
  refine ⟨u, hu, ?_⟩
  have hall : ∀ a ∈ c :: args, IsMiddle a := by
    intro a h
    rcases List.mem_cons.1 h with rfl | h
    · exact hc
    · exact ha a h
  have hw : IsWord (':' :: p) :=
    ⟨by simp, by intro h; rcases List.mem_cons.1 h with h | h; exact absurd h (by decide); exact hp h⟩
  have hI : Index ((':' :: p) ++ spaced (c :: args)) sepColon = none := by
    rw [Index_word_append _ _ hw.2, Index_spaced _ hall]; rfl
  have hin : (':' :: p) ++ (' ' :: c) ++ spaced args ++ [' ', ':'] ++ t =
      ((':' :: p) ++ spaced (c :: args)) ++ ' ' :: ':' :: t := by simp [spaced]
  rw [hin]
  have hcons : ((':' :: p) ++ spaced (c :: args)) ++ ' ' :: ':' :: t =
      ':' :: (p ++ spaced (c :: args) ++ ' ' :: ':' :: t) := by simp
  rw [hcons, parseLine_cons _ _ _ (by decide), ← hcons, lineHead_append_sep _ _ hI,
    lineTrailing_append_sep _ _ hI,
    FieldsFunc_word_spaced _ _ hw (fun a h => (hall a h).1),
    parseWords_prefix_cmd _ _ _ _ _ _ hu]
  simp [Line.init]

/-- C1, at the line `":alice!a@b CMD arg1 arg2 :trailing text"`: the sender
has the nickname `alice`, the command is `CMD`, the arguments are `arg1`,
`arg2`, `trailing text`. -/
theorem parseLine_prefix_command_args_trailing_witness :
    parseUser "alice!a@b".toList =
      some { Nick := "alice".toList, UserName := "a".toList, Host := "b".toList,
             Raw := "alice!a@b".toList } ∧
    ∃ u, parseUser "alice!a@b".toList = some u ∧
      parseLine 0 ((':' :: "alice!a@b".toList) ++ (' ' :: "CMD".toList) ++
          spaced ["arg1".toList, "arg2".toList] ++ [' ', ':'] ++ "trailing text".toList) =
        some { Src := u, Command := "CMD".toList,
               Args := ["arg1".toList, "arg2".toList] ++ ["trailing text".toList],
               Raw := (':' :: "alice!a@b".toList) ++ (' ' :: "CMD".toList) ++
                 spaced ["arg1".toList, "arg2".toList] ++ [' ', ':'] ++ "trailing text".toList,
               Time := 0, Dst := [], me := User.zero } :=
  ⟨by decide,
   parseLine_prefix_command_args_trailing 0 "alice!a@b".toList "CMD".toList
    "trailing text".toList ["arg1".toList, "arg2".toList] (by decide)
    (by unfold IsMiddle IsWord; decide) (by unfold IsMiddle IsWord; decide)⟩

/-- C2: `parseLine` and `parseUser` return a value on every input, no index
or slice expression being out of range: the split on `" :"` has at least one
piece, every token of the head is non-empty, and a match of `userRegex` has
the four entries `matches[0]` to `matches[3]`. -/
theorem parseLine_parseUser_total :
    (∀ (now : Nat) (input : Str), ∃ l, parseLine now input = some l) ∧
    (∀ raw : Str, ∃ u, parseUser raw = some u) ∧
    (∀ input : Str, ∃ head rest, SplitN input [' ', ':'] 2 = head :: rest) ∧
    (∀ (head : Str), ∀ w ∈ FieldsFunc head (fun r => r == ' '), ∃ b r, w = b :: r) ∧
    (∀ (raw : Str) (ms : List Str), userRegex.FindStringSubmatch raw = some ms →
      ∃ m0 m1 m2 m3, ms = [m0, m1, m2, m3]) := by
  refine ⟨parseLine_total, parseUser_total, ?_, ?_, ?_⟩
  · intro input
    exact ⟨_, _, SplitN_eq input⟩
  · intro head w hw
    have := fieldsLoop_mem_ne_nil _ _ _ w hw
    cases w with
    | nil => exact absurd rfl this
    | cons b r => exact ⟨b, r, rfl⟩
  · intro raw ms h
    have hl := FindStringSubmatch_length _ _ _ h
    match ms, hl with
    | [m0, m1, m2, m3], _ => exact ⟨m0, m1, m2, m3, rfl⟩

/-- C3: on a line that is empty or begins with a space, `parseLine` returns
a line whose `Command` is empty. -/
theorem parseLine_empty_or_space (now : Nat) (s : Str) (h : s = [] ∨ s.head? = some ' ') :
    ∃ l, parseLine now s = some l ∧ l.Command = [] := by
  match s, h with
  | [], _ => exact ⟨_, parseLine_nil now, rfl⟩
  | b :: s, h =>
    have hb : b = ' ' := by simpa using h
    subst hb
    exact ⟨_, parseLine_space now s, rfl⟩

/-- C3, at the lines `""` and `" PING"`. -/
theorem parseLine_empty_or_space_witness :
    (∃ l, parseLine 0 [] = some l ∧ l.Command = []) ∧
    (∃ l, parseLine 0 " PING".toList = some l ∧ l.Command = []) :=
  ⟨parseLine_empty_or_space 0 [] (Or.inl rfl),
   parseLine_empty_or_space 0 " PING".toList (Or.inr (by decide))⟩

/-- C4, as stated, fails at the line `":ab!u@h"`, a prefix with no command
behind it: `Command` is empty, and `Src` is the parsed prefix, with the
nickname `ab`, not the zero `User`. -/
theorem parseLine_empty_command_counterexample :
    parseLine 0 ":ab!u@h".toList =
      some { Src := { Nick := "ab".toList, UserName := "u".toList, Host := "h".toList,
                      Raw := "ab!u@h".toList },
             Command := [], Args := [], Raw := ":ab!u@h".toList, Time := 0, Dst := [],
             me := User.zero } ∧
    ¬ (∀ l, parseLine 0 ":ab!u@h".toList = some l → l.Command = [] →
        l.Args = [] ∧ l.Src = User.zero) := by
  have h : parseLine 0 ":ab!u@h".toList =
      some { Src := { Nick := "ab".toList, UserName := "u".toList, Host := "h".toList,
                      Raw := "ab!u@h".toList },
             Command := [], Args := [], Raw := ":ab!u@h".toList, Time := 0, Dst := [],
             me := User.zero } := by decide
  refine ⟨h, ?_⟩
  intro hall
  have := (hall _ h rfl).2
  revert this
  decide

/-- C4, amended: when `parseLine` returns a line whose `Command` is empty,
`Args` is empty, and `Src` is the zero `User` if the line does not begin
with `:`. -/
theorem parseLine_empty_command (now : Nat) (input : Str) :
    ∃ l, parseLine now input = some l ∧
      (l.Command = [] → l.Args = [] ∧ (input.head? ≠ some ':' → l.Src = User.zero)) := by
  match input with
  | [] => exact ⟨_, parseLine_nil now, fun _ => ⟨rfl, fun _ => rfl⟩⟩
  | b :: s =>
    by_cases hb : b = ' '
    · subst hb
      exact ⟨_, parseLine_space now s, fun _ => ⟨rfl, fun _ => rfl⟩⟩
    · obtain ⟨w, ws, _, hne, h⟩ := parseLine_cases now b s hb
      rcases h with ⟨hc, u, _, h | ⟨cmd, args, hws, h⟩⟩ | ⟨_, h⟩
      · refine ⟨_, h.2, fun _ => ⟨rfl, fun hh => ?_⟩⟩
        exact absurd (by simp [hc]) hh
      · refine ⟨_, h, fun hcmd => ?_⟩
        have : cmd ≠ [] := hne cmd (by simp [hws])
        exact absurd hcmd this
      · refine ⟨_, h, fun hcmd => ?_⟩
        exact absurd hcmd (by simp)

/-- C4, amended, at the line `":ab!u@h"` (a prefix alone: `Command` and
`Args` are empty) and at the line `"   "`. -/
theorem parseLine_empty_command_witness :
    (parseLine 0 "   ".toList = some (Line.init 0 "   ".toList)) ∧
    (∃ l, parseLine 0 "   ".toList = some l ∧
      (l.Command = [] → l.Args = [] ∧ ("   ".toList.head? ≠ some ':' → l.Src = User.zero))) ∧
    (∃ l, parseLine 0 ":ab!u@h".toList = some l ∧
      (l.Command = [] → l.Args = [] ∧ (":ab!u@h".toList.head? ≠ some ':' → l.Src = User.zero))) :=
  ⟨by decide, parseLine_empty_command 0 "   ".toList, parseLine_empty_command 0 ":ab!u@h".toList⟩

/-- C5: when the first `" :"` of a line stands behind the text `h` and
before the text `t`, and `parseLine` finds a command, the last element of
`Args` is `t` itself. -/
theorem parseLine_trailing_last (now : Nat) (h t : Str)
    (hfirst : ∀ h2 t2 : Str, h ++ [' ', ':'] ++ t = h2 ++ [' ', ':'] ++ t2 → h.length ≤ h2.length) :
    ∃ l, parseLine now (h ++ [' ', ':'] ++ t) = some l ∧
      (l.Command ≠ [] → l.Args.getLast? = some t) := by
  have htr : lineTrailing (h ++ [' ', ':'] ++ t) = [t] := by
    cases hi : Index (h ++ [' ', ':'] ++ t) sepColon with
    | none => exact absurd rfl ((Index_none_iff _ _).1 hi h t)
    | some m =>
      have h1 : m ≤ h.length := Index_some_first _ _ _ hi h t rfl
      have h2 := Index_some_split _ _ _ hi
      have h3 : h.length ≤ m := by
        have := hfirst _ _ h2
        rw [List.length_take] at this
        omega
      have hm : m = h.length := by omega
      subst hm
      simp only [lineTrailing, hi]
      have e : h ++ [' ', ':'] ++ t = h ++ ([' ', ':'] ++ t) := by simp
      rw [e, List.drop_append_eq_append_drop]
      simp
  match hin : h ++ [' ', ':'] ++ t with
  | [] => simp at hin
  | b :: s =>
    rw [hin] at htr
    by_cases hb : b = ' '
    · subst hb
      exact ⟨_, parseLine_space now s, fun hc => absurd rfl hc⟩
    · obtain ⟨w, ws, _, hne, hc⟩ := parseLine_cases now b s hb
      rcases hc with ⟨_, u, _, hc | ⟨cmd, args, _, hc⟩⟩ | ⟨_, hc⟩
      · exact ⟨_, hc.2, fun hcmd => absurd rfl hcmd⟩
      · exact ⟨_, hc, fun _ => by simp [htr]⟩
      · exact ⟨_, hc, fun _ => by simp [htr]⟩

/-- C5, at the line `"CMD :foo:bar baz"`: the arguments are the one text
`foo:bar baz`. -/
theorem parseLine_trailing_last_witness :
    parseLine 0 "CMD :foo:bar baz".toList =
      some { Src := User.zero, Command := "CMD".toList, Args := ["foo:bar baz".toList],
             Raw := "CMD :foo:bar baz".toList, Time := 0, Dst := [], me := User.zero } ∧
    ∃ l, parseLine 0 ("CMD".toList ++ [' ', ':'] ++ "foo:bar baz".toList) = some l ∧
      (l.Command ≠ [] → l.Args.getLast? = some "foo:bar baz".toList) :=
  ⟨by decide,
   parseLine_trailing_last 0 "CMD".toList "foo:bar baz".toList (by
    intro h2 t2 e
    match h2 with
    | [] => exact absurd e (by simp)
    | [_] => exact absurd e (by simp)
    | [_, _] => exact absurd e (by simp)
    | _ :: _ :: _ :: _ => simp)⟩

/-- C6: for tokens `w0, w1, ..., wn` (each non-empty, without a space, not
beginning with `:`), each `wi` with `i ≥ 1` behind a run of one or more
spaces, and any number of spaces at the end, `parseLine` returns
`Command = w0` and `Args = [w1, ..., wn]`. -/
theorem parseLine_collapses_spaces (now : Nat) (w0 : Str) (ws : List (Nat × Str)) (m : Nat)
    (h0 : IsMiddle w0) (hws : ∀ x ∈ ws, IsMiddle x.2) :
    parseLine now (w0 ++ gapped ws ++ List.replicate m ' ') =
      some { Src := User.zero, Command := w0, Args := ws.map Prod.snd,
             Raw := w0 ++ gapped ws ++ List.replicate m ' ',
             Time := now, Dst := [], me := User.zero } := by
  have hI : Index (w0 ++ (gapped ws ++ List.replicate m ' ')) sepColon = none := by
    rw [Index_word_append _ _ h0.1.2, Index_gapped m ws hws]; rfl
  have hF := FieldsFunc_word_gapped m ws w0 h0.1 (fun x hx => (hws x hx).1)
  rw [List.append_assoc]
  obtain ⟨⟨hne, hsp⟩, hcol⟩ := h0
  match w0, hne, hsp, hcol, hI, hF with
  | b :: w, _, hsp, hcol, hI, hF =>
    have hb : b ≠ ' ' := by intro e; exact hsp (by simp [e])
    have hc : b ≠ ':' := by simpa using hcol
    rw [List.cons_append] at hI hF ⊢
    rw [parseLine_cons _ _ _ hb, lineHead_of_none _ hI, lineTrailing_of_none _ hI, hF,
      parseWords_cmd _ _ _ _ _ hc]
    simp [Line.init]

/-- C6, at the line `"CMD   a   b"`: the arguments are `a` and `b`. -/
theorem parseLine_collapses_spaces_witness :
    parseLine 0 ("CMD".toList ++ gapped [(2, "a".toList), (2, "b".toList)] ++ List.replicate 0 ' ') =
      some { Src := User.zero, Command := "CMD".toList,
             Args := [(2, "a".toList), (2, "b".toList)].map Prod.snd,
             Raw := "CMD".toList ++ gapped [(2, "a".toList), (2, "b".toList)] ++
               List.replicate 0 ' ',
             Time := 0, Dst := [], me := User.zero } ∧
    "CMD".toList ++ gapped [(2, "a".toList), (2, "b".toList)] ++ List.replicate 0 ' ' =
      "CMD   a   b".toList :=
  ⟨parseLine_collapses_spaces 0 "CMD".toList [(2, "a".toList), (2, "b".toList)] 0
    (by unfold IsMiddle IsWord; decide) (by unfold IsMiddle IsWord; decide), by decide⟩

/-- C7: on a line that does not begin with `:`, `parseLine` returns a line
whose `Src` is the zero `User`. -/
theorem parseLine_no_prefix (now : Nat) (input : Str) (h : input.head? ≠ some ':') :
    ∃ l, parseLine now input = some l ∧ l.Src = User.zero := by
  match input, h with
  | [], _ => exact ⟨_, parseLine_nil now, rfl⟩
  | b :: s, h =>
    have hcol : b ≠ ':' := by simpa using h
    by_cases hb : b = ' '
    · subst hb
      exact ⟨_, parseLine_space now s, rfl⟩
    · obtain ⟨w, ws, _, _, hc⟩ := parseLine_cases now b s hb
      rcases hc with ⟨hc, _⟩ | ⟨_, hc⟩
      · exact absurd hc hcol
      · exact ⟨_, hc, rfl⟩

/-- C7, at the line `"PING :server1"`: the command is `PING`, the arguments
are the one text `server1`, the sender is the zero `User`. -/
theorem parseLine_no_prefix_witness :
    parseLine 0 "PING :server1".toList =
      some { Src := User.zero, Command := "PING".toList, Args := ["server1".toList],
             Raw := "PING :server1".toList, Time := 0, Dst := [], me := User.zero } ∧
    ∃ l, parseLine 0 "PING :server1".toList = some l ∧ l.Src = User.zero :=
  ⟨by decide, parseLine_no_prefix 0 "PING :server1".toList (by decide)⟩

theorem nickFirstClass_of_spec (c : Char) (h : isLetter c = true ∨ isSpecial c = true) :
    nickFirstClass c = true := by
  rcases h with h | h
  · simp only [isLetter, Bool.or_eq_true, Bool.and_eq_true, decide_eq_true_eq] at h
    simp only [nickFirstClass, Bool.or_eq_true, Bool.and_eq_true, decide_eq_true_eq]
    tauto
  · simp only [isSpecial, List.contains, List.elem_eq_mem, decide_eq_true_eq, List.mem_cons,
      List.mem_singleton, List.not_mem_nil, or_false] at h
    rcases h with rfl | rfl | rfl | rfl | rfl | rfl | rfl | rfl | rfl <;> decide

theorem nickRestClass_of_spec (c : Char)
    (h : isLetter c = true ∨ isDigit c = true ∨ isSpecial c = true ∨ c = '-') :
    nickRestClass c = true := by
  rcases h with h | h | h | h
  · simp only [isLetter, Bool.or_eq_true, Bool.and_eq_true, decide_eq_true_eq] at h
    simp only [nickRestClass, Bool.or_eq_true, Bool.and_eq_true, decide_eq_true_eq]
    tauto
  · simp only [isDigit, Bool.and_eq_true, decide_eq_true_eq] at h
    simp only [nickRestClass, Bool.or_eq_true, Bool.and_eq_true, decide_eq_true_eq]
    tauto
  · simp only [isSpecial, List.contains, List.elem_eq_mem, decide_eq_true_eq, List.mem_cons,
      List.mem_singleton, List.not_mem_nil, or_false] at h
    rcases h with rfl | rfl | rfl | rfl | rfl | rfl | rfl | rfl | rfl <;> decide
  · subst h; decide

theorem IsMask_of_spec (nick user host : Str) (hn : IsNick nick) (hu : user ≠ [])
    (hua : '@' ∉ user) (hh : host ≠ []) (hhn : '\n' ∉ host) : IsMask nick user host := by
  obtain ⟨c, n, rfl, hc, hne, hall⟩ := hn
  exact ⟨⟨c, n, rfl, nickFirstClass_of_spec c hc, hne,
    fun x hx => nickRestClass_of_spec x (hall x hx)⟩, ⟨hu, hua⟩, ⟨hh, hhn⟩⟩

/-- Two ways to cut a text after a run of runes of a class, each at a rune
that is not of the class, are the same cut. -/
theorem span_unique (p : Char → Bool) : ∀ (x y : Str) (a b : Char) (r1 r2 : Str),
    (∀ c ∈ x, p c = true) → (∀ c ∈ y, p c = true) → p a = false → p b = false →
    x ++ a :: r1 = y ++ b :: r2 → x = y ∧ a = b ∧ r1 = r2 := by
  intro x
  induction x with
  | nil =>
    intro y a b r1 r2 _ hy ha _ e
    cases y with
    | nil => simpa using e
    | cons d y =>
      simp only [List.nil_append, List.cons_append, List.cons.injEq] at e
      have := hy d (by simp)
      rw [← e.1, ha] at this
      cases this
  | cons c x ih =>
    intro y a b r1 r2 hx hy ha hb e
    cases y with
    | nil =>
      simp only [List.nil_append, List.cons_append, List.cons.injEq] at e
      have := hx c (by simp)
      rw [e.1, hb] at this
      cases this
    | cons d y =>
      simp only [List.cons_append, List.cons.injEq] at e
      obtain ⟨h1, h2, h3⟩ := ih y a b r1 r2 (fun z hz => hx z (by simp [hz]))
        (fun z hz => hy z (by simp [hz])) ha hb e.2
      exact ⟨by rw [e.1, h1], h2, h3⟩

/-- Inside a mask, every rune of the nick is of the second class. -/
theorem IsMask_nick_rest (nick user host : Str) (h : IsMask nick user host) :
    ∀ x ∈ nick, nickRestClass x = true := by
  obtain ⟨⟨c, n, rfl, hc, _, hall⟩, _, _⟩ := h
  intro x hx
  rcases List.mem_cons.1 hx with rfl | hx
  · simp only [nickFirstClass, Bool.or_eq_true, Bool.and_eq_true, decide_eq_true_eq] at hc
    simp only [nickRestClass, Bool.or_eq_true, Bool.and_eq_true, decide_eq_true_eq]
    tauto
  · exact hall x hx

/-- C8, as stated, fails at the mask `"ab!u@h\n"`: the nick `ab` is valid,
the user `u` is non-empty without `@`, the host `"h\n"` is non-empty, and
`parseUser` leaves `Nick`, `User` and `Host` empty, since `.` does not match a
line feed. -/
theorem parseUser_mask_counterexample :
    IsNick ['a', 'b'] ∧ (['u'] : Str) ≠ [] ∧ '@' ∉ (['u'] : Str) ∧ (['h', '\n'] : Str) ≠ [] ∧
    parseUser (['a', 'b'] ++ '!' :: ['u'] ++ '@' :: ['h', '\n']) =
      some { Nick := [], UserName := [], Host := [],
             Raw := ['a', 'b', '!', 'u', '@', 'h', '\n'] } :=
  ⟨⟨'a', ['b'], rfl, by decide, by decide, by decide⟩, by decide, by decide, by decide,
    by decide⟩

/-- C8, amended: for a valid nick, a non-empty user without `@` and a
non-empty host without a line feed, `parseUser` on `nick + "!" + user + "@" +
host` returns a `User` with exactly these three parts, and its `String()` is
the nick. -/
theorem parseUser_mask (nick user host : Str) (hn : IsNick nick) (hu : user ≠ [])
    (hua : '@' ∉ user) (hh : host ≠ []) (hhn : '\n' ∉ host) :
    ∃ u, parseUser (nick ++ '!' :: user ++ '@' :: host) = some u ∧
      u.Nick = nick ∧ u.UserName = user ∧ u.Host = host ∧ u.String = nick := by
  refine ⟨_, parseUser_of_mask nick user host (IsMask_of_spec nick user host hn hu hua hh hhn),
    rfl, rfl, rfl, ?_⟩
  obtain ⟨c, n, rfl, _⟩ := hn
  simp [User.String]

/-- C8, amended, at the mask `"alice!a@b"`. -/
theorem parseUser_mask_witness :
    ∃ u, parseUser ("alice".toList ++ '!' :: "a".toList ++ '@' :: "b".toList) = some u ∧
      u.Nick = "alice".toList ∧ u.UserName = "a".toList ∧ u.Host = "b".toList ∧
      u.String = "alice".toList :=
  parseUser_mask "alice".toList "a".toList "b".toList
    ⟨'a', "lice".toList, rfl, by decide, by decide, by decide⟩
    (by decide) (by decide) (by decide) (by decide)

/-- C9: on a text without `@`, `parseUser` returns a `User` with `Nick`,
`User` and `Host` empty and `Raw` the text. -/
theorem parseUser_no_at (s : Str) (h : '@' ∉ s) :
    parseUser s = some { Nick := [], UserName := [], Host := [], Raw := s } := by
  rcases parseUser_cases s with h1 | ⟨nick, user, host, _, e, _⟩
  · exact h1.2
  · exact absurd (by rw [e]; simp) h

/-- C9, at the server name `"irc.example.net"` and at the empty text. -/
theorem parseUser_no_at_witness :
    parseUser "irc.example.net".toList =
      some { Nick := [], UserName := [], Host := [], Raw := "irc.example.net".toList } ∧
    parseUser [] = some { Nick := [], UserName := [], Host := [], Raw := [] } :=
  ⟨parseUser_no_at "irc.example.net".toList (by decide), parseUser_no_at [] (by decide)⟩

/-- C10: the code does not take `nick@host` for a mask.  At `"nick@host"`,
`parseUser` leaves `Nick`, `User` and `Host` empty; and so it does for every
valid nick and every host, the group `(?:!([^@]+))` of the pattern not being
optional. -/
theorem parseUser_nick_at_host_not_matched :
    parseUser "nick@host".toList =
      some { Nick := [], UserName := [], Host := [], Raw := "nick@host".toList } ∧
    ∀ nick host : Str, IsNick nick →
      parseUser (nick ++ '@' :: host) =
        some { Nick := [], UserName := [], Host := [], Raw := nick ++ '@' :: host } := by
  refine ⟨by decide, ?_⟩
  intro nick host hn
  rcases parseUser_cases (nick ++ '@' :: host) with h1 | ⟨n2, u2, h2, hm, e, _⟩
  · exact h1.2
  · exfalso
    have hx : ∀ x ∈ nick, nickRestClass x = true := by
      obtain ⟨c, n, rfl, hc, _, hall⟩ := hn
      intro x hx
      rcases List.mem_cons.1 hx with rfl | hx
      · have := nickFirstClass_of_spec x hc
        simp only [nickFirstClass, Bool.or_eq_true, Bool.and_eq_true, decide_eq_true_eq] at this
        simp only [nickRestClass, Bool.or_eq_true, Bool.and_eq_true, decide_eq_true_eq]
        tauto
      · exact nickRestClass_of_spec x (hall x hx)
    have e2 : nick ++ '@' :: host = n2 ++ '!' :: (u2 ++ '@' :: h2) := by simpa using e
    have := (span_unique nickRestClass nick n2 '@' '!' _ _ hx (IsMask_nick_rest n2 u2 h2 hm)
      (by decide) (by decide) e2).2.1
    exact absurd this (by decide)

/-! ## Further facts about `parseUser` -/

theorem char_of_toNat (c : Char) (n : Nat) (h : c.toNat = n) : c = Char.ofNat n := by
  rw [← h, Char.ofNat_toNat]

theorem isSpecial_of_brackets (c : Char) (h1 : '[' ≤ c) (h2 : c ≤ '\x60') :
    isSpecial c = true := by
  have a1 : 91 ≤ c.toNat := h1
  have a2 : c.toNat ≤ 96 := h2
  have : c.toNat = 91 ∨ c.toNat = 92 ∨ c.toNat = 93 ∨ c.toNat = 94 ∨ c.toNat = 95 ∨
      c.toNat = 96 := by omega
  rcases this with h | h | h | h | h | h <;> (rw [char_of_toNat c _ h]; decide)

theorem isSpecial_of_braces (c : Char) (h1 : '\x7b' ≤ c) (h2 : c ≤ '\x7d') :
    isSpecial c = true := by
  have a1 : 123 ≤ c.toNat := h1
  have a2 : c.toNat ≤ 125 := h2
  have : c.toNat = 123 ∨ c.toNat = 124 ∨ c.toNat = 125 := by omega
  rcases this with h | h | h <;> (rw [char_of_toNat c _ h]; decide)

theorem spec_of_nickFirstClass (c : Char) (h : nickFirstClass c = true) :
    isLetter c = true ∨ isSpecial c = true := by
  simp only [nickFirstClass, Bool.or_eq_true, Bool.and_eq_true, decide_eq_true_eq] at h
  rcases h with ((h | h) | h) | h
  · left
    simp only [isLetter, Bool.or_eq_true, Bool.and_eq_true, decide_eq_true_eq]
    exact Or.inl h
  · left
    simp only [isLetter, Bool.or_eq_true, Bool.and_eq_true, decide_eq_true_eq]
    exact Or.inr h
  · exact Or.inr (isSpecial_of_brackets c h.1 h.2)
  · exact Or.inr (isSpecial_of_braces c h.1 h.2)

theorem spec_of_nickRestClass (c : Char) (h : nickRestClass c = true) :
    isLetter c = true ∨ isDigit c = true ∨ isSpecial c = true ∨ c = '-' := by
  simp only [nickRestClass, Bool.or_eq_true, Bool.and_eq_true, decide_eq_true_eq,
    beq_iff_eq] at h
  rcases h with ((((h | h) | h) | h) | h) | h
  · left
    simp only [isLetter, Bool.or_eq_true, Bool.and_eq_true, decide_eq_true_eq]
    exact Or.inl h
  · left
    simp only [isLetter, Bool.or_eq_true, Bool.and_eq_true, decide_eq_true_eq]
    exact Or.inr h
  · right; left
    simp only [isDigit, Bool.and_eq_true, decide_eq_true_eq]
    exact h
  · exact Or.inr (Or.inr (Or.inl (isSpecial_of_brackets c h.1 h.2)))
  · exact Or.inr (Or.inr (Or.inl (isSpecial_of_braces c h.1 h.2)))
  · exact Or.inr (Or.inr (Or.inr h))

theorem IsNick_of_IsMask (nick user host : Str) (h : IsMask nick user host) : IsNick nick := by
  obtain ⟨⟨c, n, rfl, hc, hn, hall⟩, _, _⟩ := h
  exact ⟨c, n, rfl, spec_of_nickFirstClass c hc, hn, fun x hx => spec_of_nickRestClass x (hall x hx)⟩

theorem nickFirstClass_digit (c : Char) (h : isDigit c = true) : nickFirstClass c = false := by
  simp only [isDigit, Bool.and_eq_true, decide_eq_true_eq] at h
  have a1 : 48 ≤ c.toNat := h.1
  have a2 : c.toNat ≤ 57 := h.2
  cases hf : nickFirstClass c with
  | false => rfl
  | true =>
    simp only [nickFirstClass, Bool.or_eq_true, Bool.and_eq_true, decide_eq_true_eq] at hf
    rcases hf with ((hf | hf) | hf) | hf
    · have b : 97 ≤ c.toNat := hf.1
      omega
    · have b : 65 ≤ c.toNat := hf.1
      omega
    · have b : 91 ≤ c.toNat := hf.1
      omega
    · have b : 123 ≤ c.toNat := hf.1
      omega

/-- C11: for every text `s`, `parseUser` returns a `User` whose `Nick`,
`User` and `Host` are all three non-empty or all three empty, and whose `Raw`
is `s`. -/
theorem parseUser_all_or_none (s : Str) :
    ∃ u, parseUser s = some u ∧ u.Raw = s ∧
      ((u.Nick ≠ [] ∧ u.UserName ≠ [] ∧ u.Host ≠ []) ∨
       (u.Nick = [] ∧ u.UserName = [] ∧ u.Host = [])) := by
  rcases parseUser_cases s with h | ⟨nick, user, host, hm, _, h⟩
  · exact ⟨_, h.2, rfl, Or.inr ⟨rfl, rfl, rfl⟩⟩
  · refine ⟨_, h, rfl, Or.inl ⟨?_, hm.2.1.1, hm.2.2.1⟩⟩
    obtain ⟨c, n, e, _⟩ := hm.1
    simp [e]

/-- C12: the pattern is anchored at both ends: when `parseUser` on `s`
returns a non-empty `Nick`, the text `s` is `Nick + "!" + User + "@" + Host`,
and `Raw` is `Nick + "!" + Ident()`. -/
theorem parseUser_anchored (s : Str) :
    ∃ u, parseUser s = some u ∧
      (u.Nick ≠ [] →
        s = u.Nick ++ '!' :: (u.UserName ++ '@' :: u.Host) ∧
        u.Raw = u.Nick ++ '!' :: u.Ident) := by
  rcases parseUser_cases s with h | ⟨nick, user, host, hm, e, h⟩
  · exact ⟨_, h.2, fun hn => absurd rfl hn⟩
  · have hi : User.Ident { Nick := nick, UserName := user, Host := host, Raw := s } =
        user ++ '@' :: host := by
      simp [User.Ident, hm.2.1.1, hm.2.2.1]
    refine ⟨_, h, fun _ => ⟨?_, ?_⟩⟩
    · simpa using e
    · rw [hi]
      simpa using e

/-- C12, at `"alice!a@b"`, a mask, and at `"alice!a@b"` with a line feed
behind it and `"1alice!a@b"`, which hold a mask without being one. -/
theorem parseUser_anchored_witness :
    parseUser "alice!a@b".toList =
      some { Nick := "alice".toList, UserName := "a".toList, Host := "b".toList,
             Raw := "alice!a@b".toList } ∧
    parseUser ("alice!a@b".toList ++ ['\n']) =
      some { Nick := [], UserName := [], Host := [], Raw := "alice!a@b".toList ++ ['\n'] } ∧
    parseUser "1alice!a@b".toList =
      some { Nick := [], UserName := [], Host := [], Raw := "1alice!a@b".toList } ∧
    ∃ u, parseUser "alice!a@b".toList = some u ∧
      (u.Nick ≠ [] →
        "alice!a@b".toList = u.Nick ++ '!' :: (u.UserName ++ '@' :: u.Host) ∧
        u.Raw = u.Nick ++ '!' :: u.Ident) :=
  ⟨by decide, by decide, by decide, parseUser_anchored "alice!a@b".toList⟩

/-- C13: `Ident()` is `User + "@" + Host` when `User` and `Host` are both
non-empty, `Host` when `Host` is non-empty and `User` is empty, and the empty
text when `Host` is empty. -/
theorem Ident_cases (u : User) :
    (u.UserName ≠ [] ∧ u.Host ≠ [] → u.Ident = u.UserName ++ '@' :: u.Host) ∧
    (u.Host ≠ [] ∧ u.UserName = [] → u.Ident = u.Host) ∧
    (u.Host = [] → u.Ident = []) := by
  refine ⟨?_, ?_, ?_⟩
  · intro h; simp [User.Ident, h.1, h.2]
  · intro h; simp [User.Ident, h.1, h.2]
  · intro h; simp [User.Ident, h]

/-- C13, at `User{User: "u", Host: "h"}`, at `User{Host: "h"}`, at the zero
`User`, and at a `User` with a user name and no host. -/
theorem Ident_cases_witness :
    User.Ident { Nick := [], UserName := ['u'], Host := ['h'], Raw := [] } = ['u', '@', 'h'] ∧
    User.Ident { Nick := [], UserName := [], Host := ['h'], Raw := [] } = ['h'] ∧
    User.Ident User.zero = [] ∧
    User.Ident { Nick := ['n'], UserName := ['u'], Host := [], Raw := ['r'] } = [] :=
  ⟨(Ident_cases { Nick := [], UserName := ['u'], Host := ['h'], Raw := [] }).1
      ⟨by decide, by decide⟩,
   (Ident_cases { Nick := [], UserName := [], Host := ['h'], Raw := [] }).2.1
      ⟨by decide, rfl⟩,
   (Ident_cases User.zero).2.2 rfl,
   (Ident_cases { Nick := ['n'], UserName := ['u'], Host := [], Raw := ['r'] }).2.2 rfl⟩

/-- C16: when `parseUser` on `s` returns a non-empty `Nick`, the nick has at
least two characters, the first a letter or a special character, the later
ones letters, digits, special characters or `-`; `User` is non-empty without
`@`; `Host` is non-empty.  So a text that begins with a digit, and a text
whose second character is `!` (a nick of one character), leave `Nick`, `User`
and `Host` empty. -/
theorem parseUser_nick_shape (s : Str) :
    (∃ u, parseUser s = some u ∧
      (u.Nick ≠ [] →
        2 ≤ u.Nick.length ∧ IsNick u.Nick ∧ u.UserName ≠ [] ∧ '@' ∉ u.UserName ∧
        u.Host ≠ [])) ∧
    (∀ c rest, s = c :: rest → isDigit c = true →
      parseUser s = some { Nick := [], UserName := [], Host := [], Raw := s }) ∧
    (∀ c rest, s = c :: '!' :: rest →
      parseUser s = some { Nick := [], UserName := [], Host := [], Raw := s }) := by
  refine ⟨?_, ?_, ?_⟩
  · rcases parseUser_cases s with h | ⟨nick, user, host, hm, _, h⟩
    · exact ⟨_, h.2, fun hn => absurd rfl hn⟩
    · refine ⟨_, h, fun _ => ⟨?_, IsNick_of_IsMask nick user host hm, hm.2.1.1, hm.2.1.2,
        hm.2.2.1⟩⟩
      obtain ⟨c, n, e, _, hn, _⟩ := hm.1
      cases n with
      | nil => exact absurd rfl hn
      | cons d n => simp [e]
  · intro c rest e hd
    rcases parseUser_cases s with h | ⟨nick, user, host, hm, e2, _⟩
    · exact h.2
    · exfalso
      obtain ⟨c2, n, e3, hc, _, _⟩ := hm.1
      rw [e, e3] at e2
      simp only [List.cons_append, List.cons.injEq] at e2
      rw [← e2.1, nickFirstClass_digit c hd] at hc
      cases hc
  · intro c rest e
    rcases parseUser_cases s with h | ⟨nick, user, host, hm, e2, _⟩
    · exact h.2
    · exfalso
      obtain ⟨c2, n, e3, _, hn, hall⟩ := hm.1
      rw [e, e3] at e2
      cases n with
      | nil => exact absurd rfl hn
      | cons d n =>
        simp only [List.cons_append, List.cons.injEq] at e2
        have := hall d (by simp)
        rw [← e2.2.1] at this
        revert this
        decide

/-- C16, at `"alice!a@b"`, at `"a!u@h"` and at `"1ab!u@h"`. -/
theorem parseUser_nick_shape_witness :
    (∃ u, parseUser "alice!a@b".toList = some u ∧ u.Nick = "alice".toList ∧
      2 ≤ u.Nick.length ∧ IsNick u.Nick ∧ u.UserName ≠ [] ∧ '@' ∉ u.UserName ∧ u.Host ≠ []) ∧
    parseUser "1ab!u@h".toList =
      some { Nick := [], UserName := [], Host := [], Raw := "1ab!u@h".toList } ∧
    parseUser "a!u@h".toList =
      some { Nick := [], UserName := [], Host := [], Raw := "a!u@h".toList } := by
  refine ⟨?_, (parseUser_nick_shape "1ab!u@h".toList).2.1 '1' "ab!u@h".toList rfl (by decide),
    (parseUser_nick_shape "a!u@h".toList).2.2 'a' "u@h".toList rfl⟩
  obtain ⟨u, hu, h⟩ := (parseUser_nick_shape "alice!a@b".toList).1
  have e : parseUser "alice!a@b".toList =
      some { Nick := "alice".toList, UserName := "a".toList, Host := "b".toList,
             Raw := "alice!a@b".toList } := by decide
  have hn : u.Nick = "alice".toList := by
    rw [e] at hu; cases hu; rfl
  exact ⟨u, hu, hn, h (by rw [hn]; decide)⟩

/-- C17: on every input, `parseLine` returns a line whose `Raw` is the input
itself, whose `Dst` is empty and whose `me` is the zero `User`; its `Time` is
the time of the call. -/
theorem parseLine_frame (now : Nat) (input : Str) :
    ∃ l, parseLine now input = some l ∧
      l.Raw = input ∧ l.Dst = [] ∧ l.me = User.zero ∧ l.Time = now := by
  match input with
  | [] => exact ⟨_, parseLine_nil now, rfl, rfl, rfl, rfl⟩
  | b :: s =>
    by_cases hb : b = ' '
    · subst hb
      exact ⟨_, parseLine_space now s, rfl, rfl, rfl, rfl⟩
    · obtain ⟨w, ws, _, _, h⟩ := parseLine_cases now b s hb
      rcases h with ⟨_, u, _, h | ⟨cmd, args, _, h⟩⟩ | ⟨_, h⟩
      · exact ⟨_, h.2, rfl, rfl, rfl, rfl⟩
      · exact ⟨_, h, rfl, rfl, rfl, rfl⟩
      · exact ⟨_, h, rfl, rfl, rfl, rfl⟩

/-! ## Further facts about `parseLine` -/

theorem lineHead_word_append (w tail : Str) (hw : ' ' ∉ w) :
    lineHead (w ++ tail) = w ++ lineHead tail := by
  unfold lineHead
  rw [Index_word_append w tail hw]
  cases Index tail sepColon with
  | none => rfl
  | some m =>
    simp only [Option.map_some']
    rw [List.take_append_eq_append_take]
    have e1 : List.take (m + w.length) w = w := List.take_of_length_le (by omega)
    have e2 : m + w.length - w.length = m := by omega
    rw [e1, e2]

theorem lineHead_space (tail : Str) (ht : tail = [] ∨ tail.head? = some ' ') :
    lineHead tail = [] ∨ (lineHead tail).head? = some ' ' := by
  rcases ht with rfl | ht
  · left; simp [lineHead, Index_nil_sepColon]
  · cases tail with
    | nil => simp at ht
    | cons c r =>
      have hc : c = ' ' := by simpa using ht
      subst hc
      unfold lineHead
      cases Index (' ' :: r) sepColon with
      | none => right; rfl
      | some m =>
        cases m with
        | zero => left; rfl
        | succ m => right; rfl

theorem Index_lineHead (s : Str) : Index (lineHead s) sepColon = none := by
  unfold lineHead
  cases hi : Index s sepColon with
  | none => exact hi
  | some m =>
    rw [Index_none_iff]
    intro h t e
    simp only at e
    have hs : s = h ++ sepColon ++ (t ++ s.drop m) := by
      calc s = s.take m ++ s.drop m := (List.take_append_drop m s).symm
        _ = h ++ sepColon ++ (t ++ s.drop m) := by rw [e]; simp
    have h1 := Index_some_first _ _ _ hi h _ hs
    have h2 := congrArg List.length e
    simp only [List.length_take, List.length_append, sepColon, List.length_cons,
      List.length_nil] at h2
    omega

theorem FieldsFunc_word_tail (w tail : Str) (hw : IsWord w)
    (ht : tail = [] ∨ tail.head? = some ' ') :
    FieldsFunc (w ++ tail) isSpace = w :: FieldsFunc tail isSpace := by
  rcases ht with rfl | ht
  · simpa [FieldsFunc_nil] using FieldsFunc_word_end isSpace w hw.1 (isSpace_word w hw.2)
  · cases tail with
    | nil => simp at ht
    | cons c r =>
      have hc : c = ' ' := by simpa using ht
      subst hc
      rw [FieldsFunc_word_sep isSpace w ' ' r hw.1 (isSpace_word w hw.2) rfl,
        FieldsFunc_sep isSpace ' ' r rfl]

/-- Every text is a run of runes other than the space, then nothing or a
space and more. -/
theorem word_split : ∀ s : Str, ∃ w tail, s = w ++ tail ∧ ' ' ∉ w ∧
    (tail = [] ∨ tail.head? = some ' ') := by
  intro s
  induction s with
  | nil => exact ⟨[], [], rfl, by simp, Or.inl rfl⟩
  | cons c s ih =>
    by_cases hc : c = ' '
    · exact ⟨[], c :: s, rfl, by simp, Or.inr (by simp [hc])⟩
    · obtain ⟨w, tail, e, hw, ht⟩ := ih
      refine ⟨c :: w, tail, by simp [e], ?_, ht⟩
      intro hm
      rcases List.mem_cons.1 hm with h | h
      · exact hc h.symm
      · exact hw h

theorem fieldsLoop_no_space (f : Char → Bool) : ∀ (s cur : Str), (∀ c ∈ cur, f c = false) →
    ∀ w ∈ fieldsLoop f s cur, ∀ c ∈ w, f c = false := by
  intro s
  induction s with
  | nil =>
    intro cur hcur w hw
    by_cases hc : cur.length = 0
    · simp [fieldsLoop, hc] at hw
    · simp only [fieldsLoop, hc, if_false, List.mem_singleton] at hw
      subst hw; exact hcur
  | cons c s ih =>
    intro cur hcur w hw
    by_cases hf : f c = true
    · by_cases hc : cur.length = 0
      · simp only [fieldsLoop, hf, hc, if_true] at hw
        exact ih [] (by simp) w hw
      · simp only [fieldsLoop, hf, hc, if_true, if_false, List.mem_cons] at hw
        rcases hw with rfl | hw
        · exact hcur
        · exact ih [] (by simp) w hw
    · simp only [fieldsLoop, hf, Bool.false_eq_true, if_false] at hw
      refine ih (cur ++ [c]) ?_ w hw
      intro x hx
      rcases List.mem_append.1 hx with hx | hx
      · exact hcur x hx
      · simp only [List.mem_singleton] at hx
        subst hx
        simpa using hf

theorem Index_space_none (s : Str) (h : Index (' ' :: s) sepColon = none) :
    s.head? ≠ some ':' ∧ Index s sepColon = none := by
  cases s with
  | nil => exact ⟨by simp, Index_nil_sepColon⟩
  | cons d s =>
    by_cases hd : d = ':'
    · subst hd
      simp [Index, HasPrefix, sepColon] at h
    · have hh : (d :: s).head? ≠ some ':' := by simpa using hd
      rw [Index_space_ne _ hh] at h
      exact ⟨hh, by simpa using h⟩

/-- In a text without `" :"` that does not begin with `:`, no token begins
with `:`. -/
theorem fieldsLoop_no_colon : ∀ (s cur : Str), ' ' ∉ cur → Index (cur ++ s) sepColon = none →
    (cur ++ s).head? ≠ some ':' → ∀ w ∈ fieldsLoop isSpace s cur, w.head? ≠ some ':' := by
  intro s
  induction s with
  | nil =>
    intro cur _ _ hh w hw
    by_cases hc : cur.length = 0
    · simp [fieldsLoop, hc] at hw
    · simp only [fieldsLoop, hc, if_false, List.mem_singleton] at hw
      subst hw
      simpa using hh
  | cons c s ih =>
    intro cur hcur hI hh w hw
    by_cases hf : c = ' '
    · subst hf
      rw [Index_word_append cur _ hcur] at hI
      have hI2 : Index (' ' :: s) sepColon = none := by simpa using hI
      obtain ⟨hs1, hs2⟩ := Index_space_none s hI2
      have hrest : ∀ w ∈ fieldsLoop isSpace s [], w.head? ≠ some ':' :=
        ih [] (by simp) (by simpa using hs2) (by simpa using hs1)
      by_cases hc : cur.length = 0
      · simp only [fieldsLoop, isSpace, beq_self_eq_true, hc, if_true] at hw
        exact hrest w hw
      · simp only [fieldsLoop, isSpace, beq_self_eq_true, hc, if_true, if_false,
          List.mem_cons] at hw
        rcases hw with rfl | hw
        · cases w with
          | nil => simp
          | cons a w => simpa using hh
        · exact hrest w hw
    · have hsp : isSpace c = false := by simpa [isSpace] using hf
      simp only [fieldsLoop, hsp, Bool.false_eq_true, if_false] at hw
      refine ih (cur ++ [c]) ?_ (by simpa using hI) (by simpa using hh) w hw
      intro hm
      rcases List.mem_append.1 hm with hm | hm
      · exact hcur hm
      · simp only [List.mem_singleton] at hm
        exact hf hm.symm

/-- The tokens of the head of a line behind its first token: each is
non-empty, without a space, and does not begin with `:`. -/
theorem FieldsFunc_lineHead_middle (tail : Str) (ht : tail = [] ∨ tail.head? = some ' ') :
    ∀ x ∈ FieldsFunc (lineHead tail) isSpace, IsMiddle x := by
  intro x hx
  refine ⟨⟨fieldsLoop_mem_ne_nil _ _ _ x hx, ?_⟩, ?_⟩
  · intro hm
    have := fieldsLoop_no_space isSpace (lineHead tail) [] (by simp) x hx ' ' hm
    simp [isSpace] at this
  · refine fieldsLoop_no_colon (lineHead tail) [] (by simp) (by simpa using Index_lineHead tail)
      ?_ x hx
    rcases lineHead_space tail ht with h | h
    · simp [h]
    · simp [h]

/-- The three ways `parseLine` ends past its sanity check, for a line whose
first token is `b :: w`: the later tokens `ws` of the head are middle
arguments. -/
theorem parseLine_shape (now : Nat) (b : Char) (w tail : Str) (hb : b ≠ ' ') (hw : ' ' ∉ w)
    (ht : tail = [] ∨ tail.head? = some ' ') :
    ∃ ws, (∀ x ∈ ws, IsMiddle x) ∧
      ((b = ':' ∧ ∃ u, parseUser w = some u ∧
          ((ws = [] ∧ parseLine now (b :: (w ++ tail)) =
              some { Line.init now (b :: (w ++ tail)) with Src := u }) ∨
           (∃ cmd args, ws = cmd :: args ∧ parseLine now (b :: (w ++ tail)) =
              some { Line.init now (b :: (w ++ tail)) with
                Src := u, Command := cmd,
                Args := args ++ lineTrailing (b :: (w ++ tail)) }))) ∨
       (b ≠ ':' ∧ parseLine now (b :: (w ++ tail)) =
          some { Line.init now (b :: (w ++ tail)) with
            Command := b :: w, Args := ws ++ lineTrailing (b :: (w ++ tail)) })) := by
  obtain ⟨w2, ws, hF, _, h⟩ := parseLine_cases now b (w ++ tail) hb
  have hbw : IsWord (b :: w) := by
    refine ⟨by simp, ?_⟩
    intro hm
    rcases List.mem_cons.1 hm with hm | hm
    · exact hb hm.symm
    · exact hw hm
  have hF2 : FieldsFunc (lineHead (b :: (w ++ tail))) isSpace =
      (b :: w) :: FieldsFunc (lineHead tail) isSpace := by
    have e : b :: (w ++ tail) = (b :: w) ++ tail := rfl
    rw [e, lineHead_word_append (b :: w) tail hbw.2,
      FieldsFunc_word_tail (b :: w) (lineHead tail) hbw (lineHead_space tail ht)]
  rw [hF2] at hF
  simp only [List.cons.injEq, true_and] at hF
  obtain ⟨rfl, rfl⟩ := hF
  exact ⟨_, FieldsFunc_lineHead_middle tail ht, h⟩

/-- C15: on a line `":" + p + tail`, where `p` has no space and `tail` is
empty or begins with a space, `parseLine` returns a line whose `Src` is
`parseUser(p)`: its `Raw` is `p`, without a space.  A command need not
follow. -/
theorem parseLine_prefix_src (now : Nat) (p tail : Str) (hp : ' ' ∉ p)
    (ht : tail = [] ∨ tail.head? = some ' ') :
    ∃ l u, parseLine now (':' :: (p ++ tail)) = some l ∧ parseUser p = some u ∧
      l.Src = u ∧ l.Src.Raw = p ∧ ' ' ∉ l.Src.Raw := by
  obtain ⟨ws, _, h⟩ := parseLine_shape now ':' p tail (by decide) hp ht
  rcases h with ⟨_, u, hu, h | ⟨cmd, args, _, h⟩⟩ | ⟨hc, _⟩
  · have hr := parseUser_Raw p u hu
    exact ⟨_, u, h.2, hu, rfl, hr, by simpa [hr] using hp⟩
  · have hr := parseUser_Raw p u hu
    exact ⟨_, u, h, hu, rfl, hr, by simpa [hr] using hp⟩
  · exact absurd rfl hc

/-- C15, at the lines `":alice!a@b CMD arg"`, `":irc.example.net"` (no
command behind the prefix) and `":srv :text"`. -/
theorem parseLine_prefix_src_witness :
    (∃ l u, parseLine 0 (':' :: ("alice!a@b".toList ++ " CMD arg".toList)) = some l ∧
      parseUser "alice!a@b".toList = some u ∧
      l.Src = u ∧ l.Src.Raw = "alice!a@b".toList ∧ ' ' ∉ l.Src.Raw) ∧
    (∃ l u, parseLine 0 (':' :: ("irc.example.net".toList ++ [])) = some l ∧
      parseUser "irc.example.net".toList = some u ∧
      l.Src = u ∧ l.Src.Raw = "irc.example.net".toList ∧ ' ' ∉ l.Src.Raw) ∧
    (∃ l u, parseLine 0 (':' :: ("srv".toList ++ " :text".toList)) = some l ∧
      parseUser "srv".toList = some u ∧
      l.Src = u ∧ l.Src.Raw = "srv".toList ∧ ' ' ∉ l.Src.Raw) ∧
    parseLine 0 ":irc.example.net".toList =
      some { Src := { Nick := [], UserName := [], Host := [], Raw := "irc.example.net".toList },
             Command := [], Args := [], Raw := ":irc.example.net".toList, Time := 0,
             Dst := [], me := User.zero } :=
  ⟨parseLine_prefix_src 0 "alice!a@b".toList " CMD arg".toList (by decide) (Or.inr (by decide)),
   parseLine_prefix_src 0 "irc.example.net".toList [] (by decide) (Or.inl rfl),
   parseLine_prefix_src 0 "srv".toList " :text".toList (by decide) (Or.inr (by decide)),
   by decide⟩

/-- C18: on every input, `parseLine` returns a line whose `Command` has no
space and does not begin with `:`, and whose `Args` are middle arguments
(non-empty, without a space, not beginning with `:`) followed by nothing or
by the trailing argument of the line. -/
theorem parseLine_tokens (now : Nat) (input : Str) :
    ∃ l, parseLine now input = some l ∧ ' ' ∉ l.Command ∧ l.Command.head? ≠ some ':' ∧
      ∃ mids tr, l.Args = mids ++ tr ∧ (tr = [] ∨ tr = lineTrailing input) ∧
        ∀ a ∈ mids, a ≠ [] ∧ ' ' ∉ a ∧ a.head? ≠ some ':' := by
  have hmid : ∀ ws : List Str, (∀ x ∈ ws, IsMiddle x) →
      ∀ a ∈ ws, a ≠ [] ∧ ' ' ∉ a ∧ a.head? ≠ some ':' :=
    fun ws h a ha => ⟨(h a ha).1.1, (h a ha).1.2, (h a ha).2⟩
  match input with
  | [] =>
    exact ⟨_, parseLine_nil now, by simp [Line.init], by simp [Line.init], [], [], rfl,
      Or.inl rfl, by simp⟩
  | b :: s =>
    by_cases hb : b = ' '
    · subst hb
      exact ⟨_, parseLine_space now s, by simp [Line.init], by simp [Line.init], [], [], rfl,
        Or.inl rfl, by simp⟩
    · obtain ⟨w, tail, rfl, hw, ht⟩ := word_split s
      obtain ⟨ws, hws, h⟩ := parseLine_shape now b w tail hb hw ht
      rcases h with ⟨_, u, _, h | ⟨cmd, args, e, h⟩⟩ | ⟨hc, h⟩
      · exact ⟨_, h.2, by simp [Line.init], by simp [Line.init], [], [], rfl, Or.inl rfl,
          by simp⟩
      · have hcmd : IsMiddle cmd := hws cmd (by simp [e])
        refine ⟨_, h, hcmd.1.2, hcmd.2, args, _, rfl, Or.inr rfl, ?_⟩
        exact hmid args (fun x hx => hws x (by simp [e, hx]))
      · refine ⟨_, h, ?_, by simpa using hc, ws, _, rfl, Or.inr rfl, hmid ws hws⟩
        intro hm
        rcases List.mem_cons.1 hm with hm | hm
        · exact hb hm.symm
        · exact hw hm

/-- C18, at the line `":ab!b@c CMD x  y :z w"`. -/
theorem parseLine_tokens_witness :
    parseLine 0 ":ab!b@c CMD x  y :z w".toList =
      some { Src := { Nick := "ab".toList, UserName := "b".toList, Host := "c".toList,
                      Raw := "ab!b@c".toList },
             Command := "CMD".toList, Args := ["x".toList, "y".toList, "z w".toList],
             Raw := ":ab!b@c CMD x  y :z w".toList, Time := 0, Dst := [],
             me := User.zero } ∧
    lineTrailing ":ab!b@c CMD x  y :z w".toList = ["z w".toList] ∧
    ∃ l, parseLine 0 ":ab!b@c CMD x  y :z w".toList = some l ∧ ' ' ∉ l.Command ∧
      l.Command.head? ≠ some ':' ∧
      ∃ mids tr, l.Args = mids ++ tr ∧
        (tr = [] ∨ tr = lineTrailing ":ab!b@c CMD x  y :z w".toList) ∧
        ∀ a ∈ mids, a ≠ [] ∧ ' ' ∉ a ∧ a.head? ≠ some ':' :=
  ⟨by decide, by decide, parseLine_tokens 0 ":ab!b@c CMD x  y :z w".toList⟩

/-- C14, as stated, fails: a line holds the `User` value it was given, not
a reference.  The line `":old!u@h NICK new"`, given the identity `old` of
the client at the time of parsing, still answers `true` to `SrcIsMe()` once
the client is `new`, though `Src.Nick` is not `new`. -/
theorem SrcIsMe_current_identity_counterexample :
    ∃ l, parseLine 0 ":old!u@h NICK new".toList = some l ∧
      l.Src.Nick = "old".toList ∧
      Line.SrcIsMe { l with me := { User.zero with Nick := "old".toList } } = true ∧
      ¬ (Line.SrcIsMe { l with me := { User.zero with Nick := "old".toList } } = true ↔
          l.Src.Nick = User.Nick { User.zero with Nick := "new".toList }) := by
  refine ⟨{ Src := { Nick := "old".toList, UserName := "u".toList, Host := "h".toList,
                     Raw := "old!u@h".toList },
            Command := "NICK".toList, Args := ["new".toList],
            Raw := ":old!u@h NICK new".toList, Time := 0, Dst := [], me := User.zero },
    by decide, rfl, by decide, by decide⟩

/-- C14, amended: `SrcIsMe()` is true iff `Src.Nick` equals the `Nick` of the
`User` value the line holds in `me` when it is called; once `me` is assigned
an identity `m`, it is true iff `Src.Nick` equals `m.Nick`, the parsed fields
of the line being what they were. -/
theorem SrcIsMe_stored_identity (l : Line) (m : User) :
    (l.SrcIsMe = true ↔ l.Src.Nick = l.me.Nick) ∧
    (Line.SrcIsMe { l with me := m } = true ↔ l.Src.Nick = m.Nick) ∧
    ({ l with me := m } : Line).Src = l.Src ∧ ({ l with me := m } : Line).Command = l.Command ∧
    ({ l with me := m } : Line).Args = l.Args ∧ ({ l with me := m } : Line).Raw = l.Raw := by
  refine ⟨by simp [Line.SrcIsMe], by simp [Line.SrcIsMe], rfl, rfl, rfl, rfl⟩

/-- C19: `parseLine` leaves `me` the zero `User`, so on the line it returns
`SrcIsMe()` is true iff `Src.Nick` is empty: it is true on a line that does
not begin with `:`, and on a line `":" + p + tail` it is true iff
`parseUser(p)` has an empty `Nick`. -/
theorem parseLine_SrcIsMe (now : Nat) (input : Str) :
    ∃ l, parseLine now input = some l ∧
      (l.SrcIsMe = true ↔ l.Src.Nick = []) ∧
      (input.head? ≠ some ':' → l.SrcIsMe = true) ∧
      (∀ p tail u, input = ':' :: (p ++ tail) → ' ' ∉ p →
        (tail = [] ∨ tail.head? = some ' ') → parseUser p = some u →
        (l.SrcIsMe = true ↔ u.Nick = [])) := by
  match input with
  | [] =>
    exact ⟨_, parseLine_nil now, by simp [Line.SrcIsMe, Line.init, User.zero],
      fun _ => by simp [Line.SrcIsMe, Line.init, User.zero], fun p tail u e => by simp at e⟩
  | b :: s =>
    by_cases hb : b = ' '
    · subst hb
      exact ⟨_, parseLine_space now s, by simp [Line.SrcIsMe, Line.init, User.zero],
        fun _ => by simp [Line.SrcIsMe, Line.init, User.zero],
        fun p tail u e => by simp at e⟩
    · obtain ⟨w, tail, rfl, hw, ht⟩ := word_split s
      have huniq : ∀ p t2, b :: (w ++ tail) = ':' :: (p ++ t2) → ' ' ∉ p →
          (t2 = [] ∨ t2.head? = some ' ') → p = w := by
        intro p t2 e hp ht2
        simp only [List.cons.injEq] at e
        have e2 := e.2
        rcases ht with rfl | ht
        · rcases ht2 with rfl | ht2
          · simpa using e2.symm
          · cases t2 with
            | nil => simp at ht2
            | cons c r =>
              have hc : c = ' ' := by simpa using ht2
              subst hc
              exact absurd (by rw [List.append_nil] at e2; rw [e2]; simp) hw
        · cases tail with
          | nil => simp at ht
          | cons c r =>
            have hc : c = ' ' := by simpa using ht
            subst hc
            rcases ht2 with rfl | ht2
            · exact absurd (by rw [List.append_nil] at e2; rw [← e2]; simp) hp
            · cases t2 with
              | nil => simp at ht2
              | cons c2 r2 =>
                have hc2 : c2 = ' ' := by simpa using ht2
                subst hc2
                have := span_unique (fun x => x != ' ') w p ' ' ' ' r r2
                  (fun x hx => by
                    simp only [bne_iff_ne, ne_eq]
                    intro hx2; exact hw (hx2 ▸ hx))
                  (fun x hx => by
                    simp only [bne_iff_ne, ne_eq]
                    intro hx2; exact hp (hx2 ▸ hx))
                  (by simp) (by simp) e2
                exact this.1.symm
      obtain ⟨ws, _, h⟩ := parseLine_shape now b w tail hb hw ht
      rcases h with ⟨hc, u, hu, h | ⟨cmd, args, _, h⟩⟩ | ⟨hc, h⟩
      · refine ⟨_, h.2, by simp [Line.SrcIsMe, Line.init, User.zero], fun hh => ?_,
          fun p t2 u2 e hp ht2 hu2 => ?_⟩
        · exact absurd (by simp [hc]) hh
        · have := huniq p t2 e hp ht2
          subst this
          rw [hu] at hu2
          cases hu2
          simp [Line.SrcIsMe, Line.init, User.zero]
      · refine ⟨_, h, by simp [Line.SrcIsMe, Line.init, User.zero], fun hh => ?_,
          fun p t2 u2 e hp ht2 hu2 => ?_⟩
        · exact absurd (by simp [hc]) hh
        · have := huniq p t2 e hp ht2
          subst this
          rw [hu] at hu2
          cases hu2
          simp [Line.SrcIsMe, Line.init, User.zero]
      · refine ⟨_, h, by simp [Line.SrcIsMe, Line.init, User.zero],
          fun _ => by simp [Line.SrcIsMe, Line.init, User.zero],
          fun p t2 u2 e => ?_⟩
        simp only [List.cons.injEq] at e
        exact absurd e.1 hc

/-- C19, at the lines `"PING :server1"` and `":irc.example.net 001 me"`,
where `SrcIsMe()` is true, and `":alice!a@b CMD"`, where it is false. -/
theorem parseLine_SrcIsMe_witness :
    (parseLine 0 "PING :server1".toList).map Line.SrcIsMe = some true ∧
    (parseLine 0 ":irc.example.net 001 me".toList).map Line.SrcIsMe = some true ∧
    (parseLine 0 ":alice!a@b CMD".toList).map Line.SrcIsMe = some false ∧
    ∃ l, parseLine 0 ":alice!a@b CMD".toList = some l ∧
      (l.SrcIsMe = true ↔ l.Src.Nick = []) ∧
      (":alice!a@b CMD".toList.head? ≠ some ':' → l.SrcIsMe = true) ∧
      (∀ p tail u, ":alice!a@b CMD".toList = ':' :: (p ++ tail) → ' ' ∉ p →
        (tail = [] ∨ tail.head? = some ' ') → parseUser p = some u →
        (l.SrcIsMe = true ↔ u.Nick = [])) :=
  ⟨by decide, by decide, by decide, parseLine_SrcIsMe 0 ":alice!a@b CMD".toList⟩

end Irc
